import Mathlib

/-!
Verification of the capa rule engine (`capa/rules.py`, `capa/main.py`).

The Python sources under `src/capa/` are shallowly embedded below.  The
statement / feature data model lives in `capa/engine.py` and
`capa/features/*`, which are not part of the sources given; those types are
modelled from the specification (section 3 of the spec).  All recursive
procedures that in Python recurse without a structural measure are given an
explicit `fuel : Nat` argument that decreases on every nested call; fuel
exhaustion is reported as a distinct error value, and all theorems about
those procedures are stated for runs that do not exhaust their fuel.
-/

mutual
/-- Modelled from the spec: a parsed rule document node ("a tree of maps and
lists", section 4.2).  Scalars are strings, integers and booleans; `YamlList`
and `YamlMap` are the nested sequence and mapping nodes.  The mutual
formulation (instead of `List Yaml`) keeps recursion over documents
structural. -/
inductive Yaml where
  | str (s : String)
  | int (n : Int)
  | bool (b : Bool)
  | list (items : YamlList)
  | map (entries : YamlMap)
inductive YamlList where
  | nil
  | cons (y : Yaml) (rest : YamlList)
inductive YamlMap where
  | nil
  | cons (key : String) (val : Yaml) (rest : YamlMap)
end

instance : Inhabited Yaml := ⟨.int 0⟩

/-- Length of a yaml sequence. -/
def YamlList.length : YamlList → Nat
  | .nil => 0
  | .cons _ rest => 1 + rest.length

/-- The entries of a yaml mapping, as a Lean list. -/
def YamlMap.toList : YamlMap → List (String × Yaml)
  | .nil => []
  | .cons k v rest => (k, v) :: rest.toList

/-- The items of a yaml sequence, as a Lean list. -/
def YamlList.toList : YamlList → List Yaml
  | .nil => []
  | .cons y rest => y :: rest.toList

/-- Number of entries of a yaml mapping (`len(d.keys())`, keys assumed
distinct as in a Python dict). -/
def YamlMap.length : YamlMap → Nat
  | .nil => 0
  | .cons _ _ rest => 1 + rest.length

/-- `d.get(key)`: first value stored under `key`. -/
def YamlMap.get : YamlMap → String → Option Yaml
  | .nil, _ => none
  | .cons k v rest, key => if k == key then some v else rest.get key

/-- `d[key] = value` on a Python dict: replace the value of an existing key
in place, otherwise append a new entry. -/
def YamlMap.set : YamlMap → String → Yaml → YamlMap
  | .nil, key, value => .cons key value .nil
  | .cons k v rest, key, value =>
    if k == key then .cons k value rest else .cons k v (rest.set key value)

/-- Python truthiness of a value read from a rule's meta dict (used by
`rule.meta.get("capa/subscope-rule", False)` and the namespace lookup). -/
def yamlTruthy : Option Yaml → Bool
  | none => false
  | some (.str s) => s ≠ ""
  | some (.int n) => n ≠ 0
  | some (.bool b) => b
  | some (.list l) => l.length ≠ 0
  | some (.map m) => m.length ≠ 0

/-- Modelled from the spec: the feature vocabulary of section 3 (the table of
typed feature values), as produced by `capa/features/*` which is not among
the given sources.  A feature is totally defined by kind and payload; the
description is metadata, not part of identity, and is therefore not stored
here. -/
inductive Feature where
  | matchedRule (value : String)
  | api (value : String)
  | string (value : String)
  | bytes (value : List Nat)
  | number (value : Int) (arch : Option String)
  | offset (value : Int) (arch : Option String)
  | mnemonic (value : String)
  | basicBlocks (value : Option Int)
  | characteristic (value : String)
  | exportName (value : String)
  | importName (value : String)
  | sectionName (value : String)
  | functionName (value : String)
  deriving DecidableEq

/-- The scope constants of `capa/rules.py` (`FILE_SCOPE` etc.); scopes are
plain strings in the source. -/
def FILE_SCOPE : String := "file"

/-- `FUNCTION_SCOPE` of `capa/rules.py`. -/
def FUNCTION_SCOPE : String := "function"

/-- `BASIC_BLOCK_SCOPE` of `capa/rules.py`. -/
def BASIC_BLOCK_SCOPE : String := "basic block"

mutual
/-- Modelled from the spec: the statement IR of section 3 (a logic tree of
And/Or/Not/Some/Range/Subscope over feature leaves), defined in
`capa/engine.py` which is not among the given sources.  The mutual
`StatementList` keeps recursion over statements structural. -/
inductive Statement where
  | And (children : StatementList) (description : Option String)
  | Or (children : StatementList) (description : Option String)
  | Not (child : Statement) (description : Option String)
  | Some (count : Int) (children : StatementList) (description : Option String)
  | Range (feature : Feature) (min : Option Int) (max : Option Int) (description : Option String)
  | Subscope (scope : String) (child : Statement)
  | Feature (f : Feature)
inductive StatementList where
  | nil
  | cons (s : Statement) (rest : StatementList)
end

instance : Inhabited Statement := ⟨.Feature (.api "")⟩

/-- The children of a statement node, as a Lean list. -/
def StatementList.toList : StatementList → List Statement
  | .nil => []
  | .cons s rest => s :: rest.toList

/-- The errors of `capa/rules.py` / `capa/main.py`: `InvalidRule`,
`InvalidRuleWithPath` and `InvalidRuleSet`.  `pyError` models an uncaught
Python exception of another class (KeyError, ValueError from `int`,
AttributeError, TypeError); `fuelExhausted` is the artifact of the explicit
fuel given to the recursions of this embedding. -/
inductive RuleError where
  | invalidRule (msg : String)
  | invalidRuleWithPath (path : String) (msg : String)
  | invalidRuleSet (msg : String)
  | pyError (msg : String)
  | fuelExhausted
  deriving DecidableEq

/-- `class Rule` of `capa/rules.py`: a named statement plus metadata.  The
raw `definition` text only feeds source re-emission, which is outside the
claims, and is not carried. -/
structure Rule where
  name : String
  scope : String
  statement : Statement
  meta : YamlMap

instance : Inhabited Rule := ⟨{ name := "", scope := "", statement := default, meta := .nil }⟩

/-- mapping from Feature to the set of addresses at which it was observed
(`FeatureSet` of `capa/engine.py`, a `defaultdict(set)` in the drivers of
`capa/main.py`).  Entries keep dict insertion order; an address set is kept
as a duplicate-free list. -/
abbrev FeatureSet : Type := List (Feature × List Nat)

/-- Lookup of a feature's address set (`features[f]` when present). -/
def FeatureSet.find : FeatureSet → Feature → Option (List Nat)
  | [], _ => none
  | (g, l) :: rest, f => if g = f then some l else FeatureSet.find rest f

/-- `features[f].add(va)` on a `defaultdict(set)`: create the entry when
missing, and add the address when not already present. -/
def FeatureSet.add : FeatureSet → Feature → Nat → FeatureSet
  | [], f, va => [(f, [va])]
  | (g, l) :: rest, f, va =>
    if g = f then (g, if va ∈ l then l else l ++ [va]) :: rest
    else (g, l) :: FeatureSet.add rest f va

/-- Whether address `va` is recorded for feature `f`. -/
def FeatureSet.memB (fs : FeatureSet) (f : Feature) (va : Nat) : Bool :=
  match fs.find f with
  | some l => l.contains va
  | none => false


/-- `listHasPref sub l` : `sub` is a prefix of `l` (over characters). -/
def listHasPref : List Char → List Char → Bool
  | [], _ => true
  | _ :: _, [] => false
  | a :: as, b :: bs => a == b && listHasPref as bs

/-- `s.startswith(p)` (kernel-reducible replacement of `String.startsWith`). -/
def strStarts (s p : String) : Bool :=
  listHasPref p.toList s.toList

/-- `s.endswith(p)` (kernel-reducible replacement of `String.endsWith`). -/
def strEnds (s p : String) : Bool :=
  listHasPref p.toList.reverse s.toList.reverse

/-- Whitespace for Python `str.strip()`. -/
def charIsSpace (c : Char) : Bool :=
  c == ' ' || c == '\t' || c == '\n' || c == '\r'

/-- Python `s.strip()` (kernel-reducible replacement of `String.trim`). -/
def strTrim (s : String) : String :=
  String.mk (((s.toList.dropWhile charIsSpace).reverse.dropWhile charIsSpace).reverse)

/-- `listInfix sub l` : `sub` occurs contiguously inside `l`. -/
def listInfix (sub : List Char) : List Char → Bool
  | [] => listHasPref sub []
  | c :: rest => listHasPref sub (c :: rest) || listInfix sub rest

/-- Python's substring test `sub in s` (note `"" in s` is true). -/
def strContainsSubstr (s sub : String) : Bool :=
  listInfix sub.toList s.toList

/-- Value of a digit character in the given base, when valid. -/
def digitVal (base : Nat) (c : Char) : Option Nat :=
  let v :=
    if c.isDigit then some (c.toNat - 48)
    else if 97 ≤ c.toNat ∧ c.toNat ≤ 122 then some (c.toNat - 87)
    else if 65 ≤ c.toNat ∧ c.toNat ≤ 90 then some (c.toNat - 55)
    else none
  match v with
  | some n => if n < base then some n else none
  | none => none

/-- Value of a nonempty digit string in the given base. -/
def digitsVal (base : Nat) : List Char → Option Nat
  | [] => none
  | [c] => digitVal base c
  | c :: rest =>
    match digitVal base c, digitsVal base rest with
    | some d, some r => some (d * base ^ rest.length + r)
    | _, _ => none

/-- Python `int(s, base)` for bases 10 and 16: surrounding whitespace is
ignored, one optional sign, and for base 16 an optional `0x` prefix.
`none` models the `ValueError` raised on any other string. -/
def pyInt (base : Nat) (s : String) : Option Int :=
  let cs := (strTrim s).toList
  let (neg, cs) :=
    match cs with
    | '-' :: rest => (true, rest)
    | '+' :: rest => (false, rest)
    | _ => (false, cs)
  let cs :=
    if base == 16 then
      match cs with
      | '0' :: 'x' :: rest => rest
      | '0' :: 'X' :: rest => rest
      | _ => cs
    else cs
  match digitsVal base cs with
  | some n => some (if neg then -(n : Int) else (n : Int))
  | none => none

/-- `parse_int` of `capa/rules.py`: strings starting with `0x` are parsed in
base 16, everything else in base 10.  An unparsable string raises Python's
`ValueError` (not `InvalidRule`). -/
def parse_int (s : String) : Except RuleError Int :=
  if strStarts s "0x" then
    match pyInt 16 s with
    | some n => .ok n
    | none => .error (.pyError "ValueError")
  else
    match pyInt 10 s with
    | some n => .ok n
    | none => .error (.pyError "ValueError")

/-- `MatchResults` of `capa/engine.py` as used by `capa/main.py`: a mapping
from rule name to the list of (address, result) pairs; the result object is
opaque to the drivers and is modelled as a number. -/
abbrev MatchResults : Type := List (String × List (Nat × Nat))

/-- `d[rule_name].extend(res)` on a `defaultdict(list)` of match results. -/
def MatchResults.extendEntry : MatchResults → String → List (Nat × Nat) → MatchResults
  | [], k, res => [(k, res)]
  | (g, l) :: rest, k, res =>
    if g = k then (g, l ++ res) :: rest else (g, l) :: MatchResults.extendEntry rest k res

/-- Accumulate a round of matches into the running per-rule results
(`for rule_name, res in matches.items(): bb_matches[rule_name].extend(res)`). -/
def MatchResults.extendAll (acc : MatchResults) (ms : MatchResults) : MatchResults :=
  List.foldl (fun a p => MatchResults.extendEntry a p.1 p.2) acc ms

/-- `class RuleSet` of `capa/rules.py`: the three topologically ordered scope
lists, the rule map (kept as the list of rules in insertion order) and the
namespace index. -/
structure RuleSet where
  fileRules : List Rule
  functionRules : List Rule
  basicBlockRules : List Rule
  rules : List Rule
  rulesByNamespace : List (String × List Rule)

instance : Inhabited RuleSet := ⟨⟨[], [], [], [], []⟩⟩

/-- Modelled from the spec: the type of `capa.engine.match` (section 4.6),
defined in `capa/engine.py` which is not among the given sources.  The
drivers of `capa/main.py` are verified for an arbitrary such function: it
receives the ordered scoped rule list, the feature set and the scope
address, and returns an (unused by the drivers) feature set together with
the match results. -/
def EngineMatch : Type :=
  List Rule → FeatureSet → Nat → FeatureSet × MatchResults

/-- Extractor output for one basic block: its address (`int(bb)`), the
pairs yielded by `extract_basic_block_features`, and per instruction the
pairs yielded by `extract_insn_features`. -/
structure BasicBlockData where
  address : Nat
  features : List (Feature × Nat)
  instructions : List (List (Feature × Nat))

/-- Extractor output for one function: its address (`int(f)`), the pairs
yielded by `extract_function_features`, and its basic blocks. -/
structure FunctionData where
  address : Nat
  features : List (Feature × Nat)
  basicBlocks : List BasicBlockData

/-- All (feature, address) pairs the extractor reports inside a basic block:
the basic-block features followed by every instruction's features, in
extraction order. -/
def BasicBlockData.allPairs (bb : BasicBlockData) : List (Feature × Nat) :=
  bb.features ++ bb.instructions.flatten

/-- The feature set a basic block is matched against in
`find_function_capabilities`: every extracted pair added into an initially
empty `defaultdict(set)`. -/
def bbFeatureSetOf (bb : BasicBlockData) : FeatureSet :=
  List.foldl (fun fs fv => FeatureSet.add fs fv.1 fv.2) ([] : FeatureSet) bb.allPairs

/-- The body of the basic-block loop of `find_function_capabilities`: build
`bb_features` while also adding every pair into `function_features`, match
the basic-block rules, extend `bb_matches`, and add a `MatchedRule` feature
to `function_features` for every address of every matched rule. -/
def processBasicBlock (em : EngineMatch) (bbRules : List Rule)
    (acc : FeatureSet × MatchResults) (bb : BasicBlockData) : FeatureSet × MatchResults :=
  let functionFeatures :=
    List.foldl (fun fs fv => FeatureSet.add fs fv.1 fv.2) acc.1 bb.allPairs
  let ms := (em bbRules (bbFeatureSetOf bb) bb.address).2
  let bbMatches := MatchResults.extendAll acc.2 ms
  let functionFeatures :=
    List.foldl
      (fun fs rm =>
        List.foldl (fun fs vr => FeatureSet.add fs (.matchedRule rm.1) vr.1) fs rm.2)
      functionFeatures ms
  (functionFeatures, bbMatches)

/-- The state after the basic-block loop of `find_function_capabilities`:
the accumulated `function_features` (seeded with the function's own
extracted features) and the accumulated `bb_matches`. -/
def functionLoopState (em : EngineMatch) (rs : RuleSet) (f : FunctionData) :
    FeatureSet × MatchResults :=
  List.foldl (processBasicBlock em rs.basicBlockRules)
    (List.foldl (fun fs fv => FeatureSet.add fs fv.1 fv.2) ([] : FeatureSet) f.features, [])
    f.basicBlocks

/-- `find_function_capabilities` of `capa/main.py`: returns the function
matches, the basic-block matches, and the function feature count. -/
def find_function_capabilities (em : EngineMatch) (rs : RuleSet) (f : FunctionData) :
    MatchResults × MatchResults × Nat :=
  let st := functionLoopState em rs f
  ((em rs.functionRules st.1 f.address).2, st.2, st.1.length)

/-- Python truthiness of the optional virtual address reported with a file
feature (`if va:`): both `None` and `0` are falsy. -/
def vaTruthy : Option Nat → Bool
  | none => false
  | some v => v != 0

/-- The body of the extractor loop of `find_file_capabilities`: a truthy
address is added to the feature's set; a feature reported with a falsy
address is only ensured present with an empty set
(`if feature not in file_features: file_features[feature] = set()`). -/
def fileFeatureStep (fs : FeatureSet) (fv : Feature × Option Nat) : FeatureSet :=
  if vaTruthy fv.2 then FeatureSet.add fs fv.1 (fv.2.getD 0)
  else
    match FeatureSet.find fs fv.1 with
    | some _ => fs
    | none => fs ++ [(fv.1, [])]

/-- The file-feature index built by the extractor loop of
`find_file_capabilities`. -/
def buildFileFeatures (reports : List (Feature × Option Nat)) : FeatureSet :=
  List.foldl fileFeatureStep ([] : FeatureSet) reports

/-- `file_features[feature] = addresses` (plain dict assignment). -/
def FeatureSet.setEntry : FeatureSet → Feature → List Nat → FeatureSet
  | [], f, l => [(f, l)]
  | (g, m) :: rest, f, l =>
    if g = f then (g, l) :: rest else (g, m) :: FeatureSet.setEntry rest f l

/-- `file_features.update(function_features)`: every entry of the argument
replaces (or creates) the entry of its key. -/
def FeatureSet.update (fs other : FeatureSet) : FeatureSet :=
  List.foldl (fun a p => FeatureSet.setEntry a p.1 p.2) fs other

/-- `find_file_capabilities` of `capa/main.py`: index the extractor's file
features, merge the promoted function/basic-block `MatchedRule` features,
and match the file rules at address 0. -/
def find_file_capabilities (em : EngineMatch) (rs : RuleSet)
    (reports : List (Feature × Option Nat)) (functionFeatures : FeatureSet) :
    MatchResults × Nat :=
  let fileFeatures := FeatureSet.update (buildFileFeatures reports) functionFeatures
  ((em rs.fileRules fileFeatures 0).2, fileFeatures.length)

/-- Split a character list at the first occurrence of `sep`, returning the
parts before and after it (`str.partition`); `none` when absent. -/
def listSplitFirst (sep : List Char) : List Char → Option (List Char × List Char)
  | [] => if listHasPref sep [] then some ([], []) else none
  | c :: rest =>
    if listHasPref sep (c :: rest) then some ([], (c :: rest).drop sep.length)
    else
      match listSplitFirst sep rest with
      | some p => some (c :: p.1, p.2)
      | none => none

/-- Python `s.partition(sep)` restricted to the pieces the source uses: the
part before the first occurrence and the part after it (empty when `sep`
does not occur, like Python's third component). -/
def strPartition (s sep : String) : String × String :=
  match listSplitFirst sep.toList s.toList with
  | some p => (String.mk p.1, String.mk p.2)
  | none => (s, "")

/-- Modelled from the spec: `MAX_BYTES_FEATURE_SIZE` of
`capa/features/common.py` (not among the given sources); the spec bounds
byte sequences by 100 bytes. -/
def MAX_BYTES_FEATURE_SIZE : Nat := 100

/-- One side of `parse_range`: an empty spec is unbounded, otherwise the
spec is parsed with `parse_int` and a negative bound raises `InvalidRule`
with the given message. -/
def parseRangeBound (spec msg : String) : Except RuleError (Option Int) :=
  if spec = "" then pure none
  else
    match parse_int spec with
    | .error e => .error e
    | .ok m => if m < 0 then .error (.invalidRule msg) else .ok (some m)

/-- `parse_range` of `capa/rules.py`: parse `"(min, max)"`; either side may
be empty (unbounded); negative bounds and `max < min` raise `InvalidRule`. -/
def parse_range (s : String) : Except RuleError (Option Int × Option Int) :=
  if ¬ strStarts s "(" then .error (.invalidRule ("invalid range: " ++ s))
  else if ¬ strEnds s ")" then .error (.invalidRule ("invalid range: " ++ s))
  else
    let inner := (s.drop 1).dropRight 1
    let specs := strPartition inner ","
    match parseRangeBound (strTrim specs.1) "range min less than zero" with
    | .error e => .error e
    | .ok min =>
      match parseRangeBound (strTrim specs.2) "range max less than zero" with
      | .error e => .error e
      | .ok max =>
        match min, max with
        | some mn, some mx =>
          if mx < mn then .error (.invalidRule "range max less than min") else .ok (min, max)
        | _, _ => .ok (min, max)

/-- A feature constructor as returned by `parse_feature` of
`capa/rules.py` (possibly partially applied with an `arch`). -/
inductive FeatureCtor where
  | api
  | stringFactory
  | bytes
  | number (arch : Option String)
  | offset (arch : Option String)
  | mnemonic
  | basicBlocks
  | characteristic
  | exportName
  | importName
  | sectionName
  | matchedRule
  | functionName
  deriving DecidableEq

/-- `parse_feature` of `capa/rules.py`: map a feature key to its
constructor; unknown keys raise `InvalidRule`. -/
def parse_feature (key : String) : Except RuleError FeatureCtor :=
  if key = "api" then .ok .api
  else if key = "string" then .ok .stringFactory
  else if key = "bytes" then .ok .bytes
  else if key = "number" then .ok (.number none)
  else if strStarts key "number/" then .ok (.number (some (key.drop 7)))
  else if key = "offset" then .ok (.offset none)
  else if strStarts key "offset/" then .ok (.offset (some (key.drop 7)))
  else if key = "mnemonic" then .ok .mnemonic
  else if key = "basic blocks" then .ok .basicBlocks
  else if key = "characteristic" then .ok .characteristic
  else if key = "export" then .ok .exportName
  else if key = "import" then .ok .importName
  else if key = "section" then .ok .sectionName
  else if key = "match" then .ok .matchedRule
  else if key = "function-name" then .ok .functionName
  else .error (.invalidRule ("unexpected statement: " ++ key))

/-- Decode a spaces-removed hex string into bytes; `none` on an odd length
or a non-hex digit. -/
def hexPairs : List Char → Option (List Nat)
  | [] => some []
  | [_] => none
  | a :: b :: rest =>
    match digitVal 16 a, digitVal 16 b, hexPairs rest with
    | some ha, some hb, some bs => some ((ha * 16 + hb) :: bs)
    | _, _, _ => none

/-- `parse_bytes` of `capa/rules.py`: decode a hex string (spaces ignored);
invalid hex raises `InvalidRule`, and so does a sequence longer than
`MAX_BYTES_FEATURE_SIZE`. -/
def parse_bytes (s : String) : Except RuleError (List Nat) := do
  match hexPairs (s.toList.filter (fun c => c ≠ ' ')) with
  | none => throw (.invalidRule "unexpected bytes value: must be a valid hex sequence")
  | some b =>
    if b.length > MAX_BYTES_FEATURE_SIZE then
      throw (.invalidRule "unexpected bytes value: byte sequences must be no larger than 100 bytes")
    else pure b

/-- The value handed to a feature constructor after `parse_description`:
the scalar from the document, possibly cast (`parse_int`, `parse_bytes`). -/
inductive FeatureValue where
  | str (s : String)
  | int (n : Int)
  | bool (b : Bool)
  | bytes (bs : List Nat)
  | node (y : Yaml)
  deriving Inhabited

/-- View a document scalar as a feature value. -/
def yamlToFeatureValue : Yaml → FeatureValue
  | .str s => .str s
  | .int n => .int n
  | .bool b => .bool b
  | y => .node y

/-- The description text attached to a statement entry; scalars are
rendered, structured values (which the source would carry along as opaque
objects) are collapsed to the empty string. -/
def yamlDescString : Yaml → String
  | .str s => s
  | .int n => toString n
  | .bool b => toString b
  | _ => ""

/-- `DESCRIPTION_SEPARATOR` of `capa/rules.py`. -/
def DESCRIPTION_SEPARATOR : String := " = "

/-- Cast the string taken from an inline-description scalar to the type the
feature key expects (the tail of `parse_description`): bytes and
number/offset keys are decoded, everything else stays a string.  A failing
`parse_int` is converted to `InvalidRule` here (unlike elsewhere). -/
def castFeatureValue (valueType : String) (value : String) : Except RuleError FeatureValue :=
  if valueType = "bytes" then do
    let b ← parse_bytes value
    pure (.bytes b)
  else if valueType = "number" ∨ valueType = "offset" ∨
      strStarts valueType "number/" ∨ strStarts valueType "offset/" then
    match parse_int value with
    | .ok n => pure (.int n)
    | .error _ =>
      throw (.invalidRule ("unexpected value: \"" ++ value ++ "\", must begin with numerical value"))
  else pure (.str value)

/-- `parse_description` of `capa/rules.py`: split an inline
`value = description` scalar (never for `string` features), reject a
duplicate or empty description, and cast the value. -/
def parse_description (s : Yaml) (valueType : String) (description : Option Yaml) :
    Except RuleError (FeatureValue × Option String) := do
  if valueType = "string" then
    pure (yamlToFeatureValue s, description.map yamlDescString)
  else
    match s with
    | .str str =>
      if strContainsSubstr str DESCRIPTION_SEPARATOR then do
        if description.isSome then
          throw (.invalidRule ("unexpected value: \"" ++ str ++
            "\", only one description allowed (inline description with \" = \")"))
        let (value, desc) := strPartition str DESCRIPTION_SEPARATOR
        if desc = "" then
          throw (.invalidRule ("unexpected value: \"" ++ str ++ "\", description cannot be empty"))
        let v ← castFeatureValue valueType value
        pure (v, some desc)
      else do
        let v ← castFeatureValue valueType str
        pure (v, description.map yamlDescString)
    | _ => pure (yamlToFeatureValue s, description.map yamlDescString)

/-- Apply a feature constructor to a parsed value (`Feature(value,
description=description)`; descriptions are not part of feature identity
and are dropped).  A payload outside the constructor's domain models an
exception escaping the dynamic constructor call. -/
def applyFeature (ctor : FeatureCtor) (v : FeatureValue) : Except RuleError Feature :=
  match ctor, v with
  | .api, .str s => .ok (.api s)
  | .stringFactory, .str s => .ok (.string s)
  | .bytes, .bytes bs => .ok (.bytes bs)
  | .number arch, .int n => .ok (.number n arch)
  | .number arch, .bool b => .ok (.number (if b then 1 else 0) arch)
  | .offset arch, .int n => .ok (.offset n arch)
  | .offset arch, .bool b => .ok (.offset (if b then 1 else 0) arch)
  | .mnemonic, .str s => .ok (.mnemonic s)
  | .basicBlocks, .int n => .ok (.basicBlocks (some n))
  | .characteristic, .str s => .ok (.characteristic s)
  | .exportName, .str s => .ok (.exportName s)
  | .importName, .str s => .ok (.importName s)
  | .sectionName, .str s => .ok (.sectionName s)
  | .matchedRule, .str s => .ok (.matchedRule s)
  | .functionName, .str s => .ok (.functionName s)
  | _, _ => .error (.pyError "TypeError")

/-- Apply a feature constructor with no argument (the `count(term)` form
without parentheses, `feature = Feature()`); only the basic-block counter
admits this. -/
def applyFeature0 (ctor : FeatureCtor) : Except RuleError Feature :=
  match ctor with
  | .basicBlocks => .ok (.basicBlocks none)
  | _ => .error (.pyError "TypeError")

/-- The characteristic values of `SUPPORTED_FEATURES` for a scope
(function scope includes the basic-block characteristics, mirroring
`SUPPORTED_FEATURES[FUNCTION_SCOPE].update(...)`). -/
def characteristicsForScope (scope : String) : List String :=
  if scope = FILE_SCOPE then ["embedded pe"]
  else if scope = FUNCTION_SCOPE then
    ["calls from", "calls to", "loop", "recursive call",
     "nzxor", "peb access", "fs access", "gs access", "cross section flow",
     "tight loop", "stack string", "indirect call"]
  else if scope = BASIC_BLOCK_SCOPE then
    ["nzxor", "peb access", "fs access", "gs access", "cross section flow",
     "tight loop", "stack string", "indirect call"]
  else []

/-- Whether a non-characteristic feature's kind is among the type entries of
`SUPPORTED_FEATURES` for the scope. -/
def featureKindOkForScope (scope : String) (f : Feature) : Bool :=
  if scope = FILE_SCOPE then
    match f with
    | .matchedRule _ => true
    | .exportName _ => true
    | .importName _ => true
    | .sectionName _ => true
    | .functionName _ => true
    | .string _ => true
    | _ => false
  else if scope = FUNCTION_SCOPE then
    match f with
    | .basicBlocks _ => true
    | .matchedRule _ => true
    | .api _ => true
    | .number _ _ => true
    | .string _ => true
    | .bytes _ => true
    | .offset _ _ => true
    | .mnemonic _ => true
    | _ => false
  else if scope = BASIC_BLOCK_SCOPE then
    match f with
    | .matchedRule _ => true
    | .api _ => true
    | .number _ _ => true
    | .string _ => true
    | .bytes _ => true
    | .offset _ _ => true
    | .mnemonic _ => true
    | _ => false
  else false

/-- `ensure_feature_valid_for_scope` of `capa/rules.py`: a characteristic
must carry a characteristic value supported at the scope; any other feature
must be of a type supported at the scope. -/
def ensure_feature_valid_for_scope (scope : String) (f : Feature) : Except RuleError Unit := do
  match f with
  | .characteristic v =>
    if (characteristicsForScope scope).contains v then pure ()
    else throw (.invalidRule ("feature not support for scope " ++ scope))
  | _ =>
    if featureKindOkForScope scope f then pure ()
    else throw (.invalidRule ("feature not support for scope " ++ scope))

/-- Whether a yaml node is a statement-description entry, i.e. a
single-entry mapping whose key is `description`
(`pop_statement_description_entry`). -/
def isDescEntry : Yaml → Bool
  | .map (.cons k _ .nil) => k == "description"
  | _ => false

/-- Number of statement-description entries in a child list. -/
def descEntryCount : YamlList → Nat
  | .nil => 0
  | .cons y rest => (if isDescEntry y then 1 else 0) + descEntryCount rest

/-- The value of the first statement-description entry, when present. -/
def firstDescEntry : YamlList → Option Yaml
  | .nil => none
  | .cons y rest =>
    match y with
    | .map (.cons k v .nil) => if k == "description" then some v else firstDescEntry rest
    | _ => firstDescEntry rest

/-- Number of child entries that remain after the description entry is
removed (`len(d[key])` as observed after `pop_statement_description_entry`;
at most one description entry is present when this is consulted). -/
def nonDescLength : YamlList → Nat
  | .nil => 0
  | .cons y rest => (if isDescEntry y then 0 else 1) + nonDescLength rest

/-- `pop_statement_description_entry` of `capa/rules.py`: only a list can
carry a statement description; more than one description entry raises
`InvalidRule`; the removal itself is realized by the child walkers below
skipping description entries. -/
def popStatementDescription : Yaml → Except RuleError (Option String)
  | .list items =>
    if descEntryCount items > 1 then
      .error (.invalidRule "statements can only have one description")
    else .ok ((firstDescEntry items).map yamlDescString)
  | _ => .ok none

/-- The dead `isinstance(statements[0], ceng.Subscope)` test of
`Rule.from_dict`: it is evaluated on a parsed document node, which is never
a `Subscope` object, so it is constantly false. -/
def yamlIsSubscopeInstance (_y : Yaml) : Bool := false

/-- The `count(...)` right-hand side handling of `build_statements`
(`capa/rules.py` lines 441-456): an integer yields an exact range, the
`N or more` / `N or fewer` suffixes yield half-bounded ranges via
`parse_int`, a parenthesized value goes through `parse_range`, anything
else raises `InvalidRule`.  (A Python `bool` is an `int` and takes the
integer branch.) -/
def buildRangeFromCount (feature : Feature) (rhs : Yaml) (description : Option String) :
    Except RuleError Statement := do
  match rhs with
  | .int n => pure (.Range feature (some n) (some n) description)
  | .bool b => pure (.Range feature (some (if b then 1 else 0)) (some (if b then 1 else 0)) description)
  | .str s =>
    if strEnds s " or more" then do
      let n ← parse_int (s.dropRight 8)
      pure (.Range feature (some n) none description)
    else if strEnds s " or fewer" then do
      let n ← parse_int (s.dropRight 9)
      pure (.Range feature none (some n) description)
    else if strStarts s "(" then do
      let (mn, mx) ← parse_range s
      pure (.Range feature mn mx description)
    else throw (.invalidRule ("unexpected range: " ++ s))
  | _ => throw (.pyError "AttributeError")

/-- The `count(...)` key handling of `build_statements` up to the feature:
split `count(term)` / `count(term(arg))`, resolve the constructor, parse
the argument (`string` takes the argument verbatim), or with no argument
call the constructor bare. -/
def buildCountFeature (key : String) : Except RuleError Feature := do
  let term := (key.drop 6).dropRight 1
  let (term, arg) := strPartition term "("
  let ctor ← parse_feature term
  if arg ≠ "" then
    let arg := arg.dropRight 1
    if term ≠ "string" then do
      let (value, _) ← parse_description (.str arg) term none
      applyFeature ctor value
    else pure (.string arg)
  else applyFeature0 ctor

mutual
/-- `build_statements` of `capa/rules.py`.  The first key of the mapping
selects the statement; child lists are walked by `buildStatementChildren`
/ `buildSingleChild`, which skip the (already counted) description
entries, realizing `pop_statement_description_entry`'s removal. -/
def build_statements (scope : String) : Yaml → Except RuleError Statement
  | .map d => do
    if d.length > 2 then throw (.invalidRule "too many statements")
    match d with
    | .nil => throw (.pyError "IndexError")
    | .cons key val rest => do
      let description ← popStatementDescription val
      if key = "and" then
        match val with
        | .list items => do
          let cs ← buildStatementChildren scope items
          pure (.And cs description)
        | _ => throw (.pyError "TypeError")
      else if key = "or" then
        match val with
        | .list items => do
          let cs ← buildStatementChildren scope items
          pure (.Or cs description)
        | _ => throw (.pyError "TypeError")
      else if key = "not" then
        match val with
        | .list items => do
          if nonDescLength items ≠ 1 then
            throw (.invalidRule "not statement must have exactly one child statement")
          let c ← buildSingleChild scope items
          pure (.Not c description)
        | _ => throw (.pyError "TypeError")
      else if strEnds key " or more" then
        match pyInt 10 (key.dropRight 7) with
        | none => throw (.pyError "ValueError")
        | some n =>
          match val with
          | .list items => do
            let cs ← buildStatementChildren scope items
            pure (.Some n cs description)
          | _ => throw (.pyError "TypeError")
      else if key = "optional" then
        match val with
        | .list items => do
          let cs ← buildStatementChildren scope items
          pure (.Some 0 cs description)
        | _ => throw (.pyError "TypeError")
      else if key = "function" then do
        if scope ≠ FILE_SCOPE then
          throw (.invalidRule "function subscope supported only for file scope")
        match val with
        | .list items => do
          if nonDescLength items ≠ 1 then
            throw (.invalidRule "subscope must have exactly one child statement")
          let c ← buildSingleChild FUNCTION_SCOPE items
          pure (.Subscope FUNCTION_SCOPE c)
        | _ => throw (.pyError "TypeError")
      else if key = "basic block" then do
        if scope ≠ FUNCTION_SCOPE then
          throw (.invalidRule "basic block subscope supported only for function scope")
        match val with
        | .list items => do
          if nonDescLength items ≠ 1 then
            throw (.invalidRule "subscope must have exactly one child statement")
          let c ← buildSingleChild BASIC_BLOCK_SCOPE items
          pure (.Subscope BASIC_BLOCK_SCOPE c)
        | _ => throw (.pyError "TypeError")
      else if strStarts key "count(" ∧ strEnds key ")" then do
        let feature ← buildCountFeature key
        ensure_feature_valid_for_scope scope feature
        buildRangeFromCount feature val description
      else if key = "string" ∧ (match val with | .str _ => (false : Bool) | _ => true) = true then
        throw (.invalidRule "ambiguous string value, must be defined as explicit string")
      else do
        let ctor ← parse_feature key
        let (value, _) ← parse_description val key ((YamlMap.cons key val rest).get "description")
        let feature ← applyFeature ctor value
        ensure_feature_valid_for_scope scope feature
        pure (.Feature feature)
  | _ => throw (.pyError "AttributeError")

/-- Build the children of a logic statement, skipping description
entries. -/
def buildStatementChildren (scope : String) : YamlList → Except RuleError StatementList
  | .nil => pure .nil
  | .cons y rest => do
    if isDescEntry y then buildStatementChildren scope rest
    else do
      let s ← build_statements scope y
      let cs ← buildStatementChildren scope rest
      pure (.cons s cs)

/-- Build the single non-description child of a `not` or subscope
statement (its presence was checked via `nonDescLength`). -/
def buildSingleChild (scope : String) : YamlList → Except RuleError Statement
  | .nil => throw (.pyError "IndexError")
  | .cons y rest =>
    if isDescEntry y then buildSingleChild scope rest
    else build_statements scope y
end

/-- `Rule.from_dict` of `capa/rules.py`: read `meta` and `features`, demand
a single top-level statement, test the (never true) raw-node `Subscope`
check, validate the scope and the `att&ck` / `mbc` shapes, and build the
statement tree. -/
def from_dict (d : Yaml) : Except RuleError Rule := do
  let ruleY ←
    match d with
    | .map m =>
      match m.get "rule" with
      | some y => pure y
      | none => throw (.pyError "KeyError")
    | _ => throw (.pyError "TypeError")
  let ruleMap ←
    match ruleY with
    | .map m => pure m
    | _ => throw (.pyError "TypeError")
  let meta ←
    match ruleMap.get "meta" with
    | some (.map m) => pure m
    | some _ => throw (.pyError "TypeError")
    | none => throw (.pyError "KeyError")
  let name ←
    match meta.get "name" with
    | some (.str s) => pure s
    | some _ => throw (.pyError "TypeError")
    | none => throw (.pyError "KeyError")
  let scope ←
    match meta.get "scope" with
    | none => pure FUNCTION_SCOPE
    | some (.str s) => pure s
    | some _ => throw (.invalidRule "scope is not a supported scope")
  let statements ←
    match ruleMap.get "features" with
    | some (.list items) => pure items
    | some _ => throw (.pyError "TypeError")
    | none => throw (.pyError "KeyError")
  if statements.length ≠ 1 then
    throw (.invalidRule "rule must begin with a single top level statement")
  let top ←
    match statements with
    | .cons y _ => pure y
    | .nil => throw (.pyError "IndexError")
  if yamlIsSubscopeInstance top then
    throw (.invalidRule "top level statement may not be a subscope")
  if ¬ (scope = FILE_SCOPE ∨ scope = FUNCTION_SCOPE ∨ scope = BASIC_BLOCK_SCOPE) then
    throw (.invalidRule (scope ++ " is not a supported scope"))
  match meta.get "att&ck" with
  | none => pure ()
  | some (.list _) => pure ()
  | some _ => throw (.invalidRule "ATT&CK mapping must be a list")
  match meta.get "mbc" with
  | none => pure ()
  | some (.list _) => pure ()
  | some _ => throw (.invalidRule "MBC mapping must be a list")
  let stmt ← build_statements scope top
  pure { name := name, scope := scope, statement := stmt, meta := meta }

/-- `is_nursery_rule_path` of `capa/main.py` (`"nursery" in path`). -/
def is_nursery_rule_path (path : String) : Bool :=
  strContainsSubstr path "nursery"

/-- `Rule.from_yaml_file` of `capa/rules.py` as seen by `get_rules`: the
parse outcome of one file, with an `InvalidRule` re-raised as
`InvalidRuleWithPath`.  The file system and yaml text are abstracted into
the per-path parse outcome. -/
def from_yaml_file (path : String) (parsed : Except RuleError Rule) : Except RuleError Rule :=
  match parsed with
  | .error (.invalidRule msg) => .error (.invalidRuleWithPath path msg)
  | r => r

/-- The loading loop of `get_rules` of `capa/main.py`, over the rule paths
collected by the directory walk (each given with its parse outcome): parse
each file in order — an `InvalidRule` is re-raised, aborting the loop — and
tag the loaded rule with `capa/path` and, under a nursery path,
`capa/nursery`. -/
def get_rules (files : List (String × Except RuleError Rule)) : Except RuleError (List Rule) :=
  List.foldlM
    (fun acc pf => do
      let rule ← from_yaml_file pf.1 pf.2
      let rule := { rule with meta := rule.meta.set "capa/path" (.str pf.1) }
      let rule :=
        if is_nursery_rule_path pf.1 then
          { rule with meta := rule.meta.set "capa/nursery" (.bool true) }
        else rule
      pure (acc ++ [rule]))
    ([] : List Rule) files

/-- Everything before the last `/` of a string, empty when there is none
(the first component of Python's `namespace.rpartition("/")`). -/
def rpartBefore (s : String) : String :=
  String.mk (((s.toList.reverse.dropWhile (fun c => c ≠ '/')).drop 1).reverse)

/-- The upward walk of `index_rules_by_namespace`
(`while namespace: ...; namespace, _, _ = namespace.rpartition("/")`),
with fuel bounding the number of iterations. -/
def namespacePrefixesAux : Nat → String → List String
  | 0, _ => []
  | fuel + 1, s => if s = "" then [] else s :: namespacePrefixesAux fuel (rpartBefore s)

/-- All prefixes of a namespace produced by walking it upward to every `/`
boundary: for `a/b/c` the list `[a/b/c, a/b, a]`.  The fuel bound
`length + 1` always suffices since `rpartBefore` shortens its argument. -/
def namespacePrefixes (s : String) : List String :=
  namespacePrefixesAux (s.toList.length + 1) s

/-- The namespace of a rule (`rule.meta.get("namespace")` with Python
truthiness: a missing or empty namespace is skipped; a non-string namespace
would crash the Python walk and is outside the model). -/
def metaNamespace (r : Rule) : Option String :=
  match r.meta.get "namespace" with
  | some (.str s) => if s = "" then none else some s
  | _ => none

/-- Whether `v` is one of the upward prefixes of the rule's namespace
(i.e. the rule is filed under key `v` by `index_rules_by_namespace`). -/
def hasNamespacePrefB (r : Rule) (v : String) : Bool :=
  match metaNamespace r with
  | some ns => (namespacePrefixes ns).contains v
  | none => false

/-- `namespaces[key].append(rule)` on the `defaultdict(list)` namespace
index. -/
def addToNamespaceIndex (idx : List (String × List Rule)) (key : String) (r : Rule) :
    List (String × List Rule) :=
  match idx with
  | [] => [(key, [r])]
  | (k, l) :: rest =>
    if k = key then (k, l ++ [r]) :: rest else (k, l) :: addToNamespaceIndex rest key r

/-- `index_rules_by_namespace` of `capa/rules.py`: every rule with a
namespace is filed under each upward prefix of that namespace. -/
def index_rules_by_namespace (rules : List Rule) : List (String × List Rule) :=
  List.foldl
    (fun idx r =>
      match metaNamespace r with
      | none => idx
      | some ns => List.foldl (fun idx p => addToNamespaceIndex idx p r) idx (namespacePrefixes ns))
    [] rules

/-- Lookup in the namespace index (`statement.value in namespaces` /
`namespaces[statement.value]`). -/
def idxGet (idx : List (String × List Rule)) (key : String) : Option (List Rule) :=
  match idx with
  | [] => none
  | (k, l) :: rest => if k = key then some l else idxGet rest key

/-- The rule-reference value carried by a feature: `MatchedRule` features
reference a rule or namespace, all other features none. -/
def featureMatchedValue : Feature → List String
  | .matchedRule v => [v]
  | _ => []

mutual
/-- The `MatchedRule` values reachable in a statement tree, in traversal
order: the walk of `Rule.get_dependencies` over `get_children()` (a
`Range`'s child is its feature in the engine's model). -/
def Statement.matchedRuleValues : Statement → List String
  | .And cs _ => cs.matchedRuleValues
  | .Or cs _ => cs.matchedRuleValues
  | .Not c _ => c.matchedRuleValues
  | .Some _ cs _ => cs.matchedRuleValues
  | .Range f _ _ _ => featureMatchedValue f
  | .Subscope _ c => c.matchedRuleValues
  | .Feature f => featureMatchedValue f
/-- The `MatchedRule` values of a child list. -/
def StatementList.matchedRuleValues : StatementList → List String
  | .nil => []
  | .cons s rest => s.matchedRuleValues ++ rest.matchedRuleValues
end

/-- `Rule.get_dependencies` of `capa/rules.py`: each `MatchedRule` value is
first tested against the namespace index — a known namespace expands to the
names of all rules filed under it — and otherwise taken as a direct rule
name.  (Python returns a set; the list below may repeat names, which every
consumer treats as membership.) -/
def get_dependencies (idx : List (String × List Rule)) (r : Rule) : List String :=
  r.statement.matchedRuleValues.flatMap
    (fun v =>
      match idxGet idx v with
      | some rs => rs.map Rule.name
      | none => [v])

/-- The meta dict of a rule derived from a subscope statement
(`Rule._extract_subscope_rules_rec`). -/
def subscopeRuleMeta (name scope parentName : String) : YamlMap :=
  .cons "name" (.str name) (.cons "scope" (.str scope) (.cons "lib" (.bool true)
    (.cons "capa/subscope-rule" (.bool true) (.cons "capa/parent" (.str parentName) .nil))))

/-- The rule created for one subscope statement: named
`<parent>/<identifier>`, scoped to the subscope's scope, carrying the
subscope's child as statement. -/
def subscopeRule (name scope : String) (stmt : Statement) (parentName : String) : Rule :=
  { name := name, scope := scope, statement := stmt,
    meta := subscopeRuleMeta name scope parentName }

mutual
/-- `Rule._extract_subscope_rules_rec` of `capa/rules.py`, functionally:
every `Subscope` child is replaced by a `MatchedRule` feature naming a
newly created rule (the subscope's subtree is not recursed into — it moved
to the new rule), and the remaining children are processed recursively.
`supply k` yields the identifier Python draws from `uuid.uuid4().hex`; `k`
is threaded as the next fresh index. -/
def extractStatement (parentName : String) (supply : Nat → String) (k : Nat) :
    Statement → Statement × List Rule × Nat
  | .And cs d =>
    let r := extractChildren parentName supply k cs
    (.And r.1 d, r.2)
  | .Or cs d =>
    let r := extractChildren parentName supply k cs
    (.Or r.1 d, r.2)
  | .Some n cs d =>
    let r := extractChildren parentName supply k cs
    (.Some n r.1 d, r.2)
  | .Not c d =>
    match c with
    | .Subscope sc ch =>
      let name := parentName ++ "/" ++ supply k
      (.Not (.Feature (.matchedRule name)) d, [subscopeRule name sc ch parentName], k + 1)
    | c =>
      let r := extractStatement parentName supply k c
      (.Not r.1 d, r.2)
  | .Subscope sc c =>
    match c with
    | .Subscope sc2 ch =>
      let name := parentName ++ "/" ++ supply k
      (.Subscope sc (.Feature (.matchedRule name)), [subscopeRule name sc2 ch parentName], k + 1)
    | c =>
      let r := extractStatement parentName supply k c
      (.Subscope sc r.1, r.2)
  | .Range f mn mx d => (.Range f mn mx d, [], k)
  | .Feature f => (.Feature f, [], k)
/-- Walk the children of a logic node: subscope children are replaced and
collected, the others recursed into. -/
def extractChildren (parentName : String) (supply : Nat → String) (k : Nat) :
    StatementList → StatementList × List Rule × Nat
  | .nil => (.nil, [], k)
  | .cons c rest =>
    match c with
    | .Subscope sc ch =>
      let name := parentName ++ "/" ++ supply k
      let r := extractChildren parentName supply (k + 1) rest
      (.cons (.Feature (.matchedRule name)) r.1,
       subscopeRule name sc ch parentName :: r.2.1, r.2.2)
    | c =>
      let rc := extractStatement parentName supply k c
      let rr := extractChildren parentName supply rc.2.2 rest
      (.cons rc.1 rr.1, rc.2.1 ++ rr.2.1, rr.2.2)
end

/-- `Rule.extract_subscope_rules` of `capa/rules.py`: rewrite the rule's
statement (the Python version mutates it in place) and return the new
rules. -/
def extract_subscope_rules (supply : Nat → String) (k : Nat) (r : Rule) :
    Rule × List Rule × Nat :=
  let res := extractStatement r.name supply k r.statement
  ({ r with statement := res.1 }, res.2)

/-- `RuleSet._extract_subscope_rules` of `capa/rules.py`: a work queue over
the rules; extracted subscope rules are appended to the queue so that they
are processed themselves.  The fuel bounds the number of queue pops. -/
def extractAllRules (supply : Nat → String) :
    Nat → List Rule → Nat → List Rule → Except RuleError (List Rule × Nat)
  | fuel, queue, k, done =>
    match queue with
    | [] => .ok (done, k)
    | r :: rest =>
      match fuel with
      | 0 => .error .fuelExhausted
      | fuel + 1 =>
        let res := extract_subscope_rules supply k r
        extractAllRules supply fuel (rest ++ res.2.1) res.2.2 (done ++ [res.1])

/-- `ensure_rules_are_unique` of `capa/rules.py`. -/
def ensureRulesAreUniqueAux (seen : List String) : List Rule → Except RuleError Unit
  | [] => .ok ()
  | r :: rest =>
    if seen.contains r.name then .error (.invalidRule ("duplicate rule name: " ++ r.name))
    else ensureRulesAreUniqueAux (r.name :: seen) rest

/-- `ensure_rules_are_unique` of `capa/rules.py`: the first repeated rule
name raises `InvalidRule`. -/
def ensure_rules_are_unique (rules : List Rule) : Except RuleError Unit :=
  ensureRulesAreUniqueAux [] rules

/-- `rules_by_name[name]`: the rule carrying a name.  (The Python dict is
iterated in insertion order and keyed by name; after
`ensure_rules_are_unique` the list below is that dict.) -/
def findRule (rules : List Rule) (name : String) : Option Rule :=
  rules.find? (fun r => r.name == name)

/-- `ensure_rule_dependencies_are_met` of `capa/rules.py`: every resolved
dependency name must name a rule. -/
def ensure_rule_dependencies_are_met (rules : List Rule) : Except RuleError Unit :=
  let idx := index_rules_by_namespace rules
  List.foldlM
    (fun _ r =>
      List.foldlM
        (fun _ dep =>
          match findRule rules dep with
          | some _ => pure ()
          | none =>
            throw (.invalidRule
              ("rule \"" ++ r.name ++ "\" depends on missing rule \"" ++ dep ++ "\"")))
        () (get_dependencies idx r))
    () rules

/-- Add a name to a set kept as a duplicate-free list. -/
def insertName (l : List String) (n : String) : List String :=
  if l.contains n then l else l ++ [n]

mutual
/-- The recursion of `get_rules_and_dependencies` of `capa/rules.py`:
`wanted.add(rule.name)` then recurse into the rule of every dependency
name (a missing name is Python's `KeyError`).  There is no visited check in
the source; the fuel bounds the recursion depth. -/
def gradVisit (rules : List Rule) (idx : List (String × List Rule)) :
    Nat → List String → Rule → Except RuleError (List String)
  | 0, _, _ => .error .fuelExhausted
  | fuel + 1, wanted, r =>
    gradVisitDeps rules idx fuel (insertName wanted r.name) (get_dependencies idx r)
/-- Visit the rules of a list of dependency names in order. -/
def gradVisitDeps (rules : List Rule) (idx : List (String × List Rule)) :
    Nat → List String → List String → Except RuleError (List String)
  | 0, _, _ => .error .fuelExhausted
  | _ + 1, wanted, [] => .ok wanted
  | fuel + 1, wanted, d :: ds => do
    match findRule rules d with
    | none => throw (.pyError "KeyError")
    | some rd => do
      let w ← gradVisit rules idx fuel wanted rd
      gradVisitDeps rules idx fuel w ds
end

/-- `get_rules_and_dependencies` of `capa/rules.py`: the named rule and its
transitive dependencies, yielded in the order of the rule list. -/
def get_rules_and_dependencies (fuel : Nat) (rules : List Rule) (ruleName : String) :
    Except RuleError (List Rule) := do
  let idx := index_rules_by_namespace rules
  match findRule rules ruleName with
  | none => throw (.pyError "KeyError")
  | some root => do
    let wanted ← gradVisit rules idx fuel [ruleName] root
    pure (rules.filter (fun r => wanted.contains r.name))

/-- The state of the depth-first post-order walk of
`topologically_order_rules`: the `seen` name set and the output list. -/
structure TopoState where
  seen : List String
  ret : List Rule

mutual
/-- The `rec` of `topologically_order_rules` of `capa/rules.py`: skip a
seen rule, otherwise visit all dependencies first and then append the rule
(post-order).  The fuel bounds the recursion depth. -/
def topoVisit (rules : List Rule) (idx : List (String × List Rule)) :
    Nat → TopoState → Rule → Except RuleError TopoState
  | 0, _, _ => .error .fuelExhausted
  | fuel + 1, st, r =>
    if st.seen.contains r.name then .ok st
    else do
      let st' ← topoVisitDeps rules idx fuel st (get_dependencies idx r)
      .ok ⟨insertName st'.seen r.name, st'.ret ++ [r]⟩
/-- Visit the rules of a list of dependency names in order. -/
def topoVisitDeps (rules : List Rule) (idx : List (String × List Rule)) :
    Nat → TopoState → List String → Except RuleError TopoState
  | 0, _, _ => .error .fuelExhausted
  | _ + 1, st, [] => .ok st
  | fuel + 1, st, d :: ds => do
    match findRule rules d with
    | none => throw (.pyError "KeyError")
    | some rd => do
      let st' ← topoVisit rules idx fuel st rd
      topoVisitDeps rules idx fuel st' ds
end

/-- `topologically_order_rules` of `capa/rules.py`: run the post-order walk
from every rule; dependencies end up before dependents. -/
def topologically_order_rules (fuel : Nat) (rules : List Rule) :
    Except RuleError (List Rule) := do
  let idx := index_rules_by_namespace rules
  let st ← List.foldlM (fun st r => topoVisit rules idx fuel st r)
    (⟨[], []⟩ : TopoState) rules
  pure st.ret

/-- `get_rules_with_scope` of `capa/rules.py`. -/
def get_rules_with_scope (rules : List Rule) (scope : String) : List Rule :=
  rules.filter (fun r => r.scope == scope)

/-- Whether a rule was derived from a subscope statement
(`rule.meta.get("capa/subscope-rule", False)` under Python truthiness). -/
def isSubscopeRule (r : Rule) : Bool :=
  yamlTruthy (r.meta.get "capa/subscope-rule")

/-- `RuleSet._get_rules_for_scope` of `capa/rules.py`: union the closures
of all non-subscope rules (a set of rules, kept here as a set of names
filtered back in list order), order topologically, and keep the rules of
the requested scope. -/
def _get_rules_for_scope (fuel : Nat) (rules : List Rule) (scope : String) :
    Except RuleError (List Rule) := do
  let scopeNames ←
    List.foldlM
      (fun acc r =>
        if isSubscopeRule r then pure acc
        else do
          let deps ← get_rules_and_dependencies fuel rules r.name
          pure (List.foldl (fun a d => insertName a d.name) acc deps))
      ([] : List String) rules
  let scopeRules := rules.filter (fun r => scopeNames.contains r.name)
  let ordered ← topologically_order_rules fuel scopeRules
  pure (get_rules_with_scope ordered scope)

/-- The tail of `RuleSet.__init__` after subscope extraction: validate
dependencies, reject an empty ruleset, and compute the three topologically
ordered scope lists and the indexes. -/
def buildRuleSetTail (fuel : Nat) (rules : List Rule) : Except RuleError RuleSet := do
  ensure_rule_dependencies_are_met rules
  if rules.length = 0 then throw (.invalidRuleSet "no rules selected")
  let fileRules ← _get_rules_for_scope fuel rules FILE_SCOPE
  let functionRules ← _get_rules_for_scope fuel rules FUNCTION_SCOPE
  let basicBlockRules ← _get_rules_for_scope fuel rules BASIC_BLOCK_SCOPE
  pure { fileRules := fileRules, functionRules := functionRules,
         basicBlockRules := basicBlockRules, rules := rules,
         rulesByNamespace := index_rules_by_namespace rules }

/-- `RuleSet.__init__` of `capa/rules.py`: validate uniqueness, extract
subscope rules, and finish with `buildRuleSetTail`. -/
def RuleSet.build (fuel : Nat) (supply : Nat → String) (rules : List Rule) :
    Except RuleError RuleSet := do
  ensure_rules_are_unique rules
  let res ← extractAllRules supply fuel rules 0 []
  buildRuleSetTail fuel res.1

/-- The filter test of `filter_rules_by_meta`: some string-valued meta
field contains the tag as a substring. -/
def ruleMetaHasTag (r : Rule) (tag : String) : Bool :=
  r.meta.toList.any
    (fun kv =>
      match kv.2 with
      | .str s => strContainsSubstr s tag
      | _ => false)

/-- The selection loop of `RuleSet.filter_rules_by_meta`: collect every
rule whose meta contains the tag together with its transitive dependencies
(a set of rules, kept as a name-deduplicated list). -/
def filterRulesFold (fuel : Nat) (rules : List Rule) (tag : String) :
    Except RuleError (List Rule) :=
  List.foldlM
    (fun acc r =>
      if ruleMetaHasTag r tag then do
        let deps ← get_rules_and_dependencies fuel rules r.name
        pure (List.foldl
          (fun a d => if a.any (fun x => x.name == d.name) then a else a ++ [d]) acc deps)
      else pure acc)
    ([] : List Rule) rules

/-- `RuleSet.filter_rules_by_meta` of `capa/rules.py`: run the selection
loop over `self.rules` and build a new `RuleSet` from the selection. -/
def filter_rules_by_meta (fuel : Nat) (supply : Nat → String) (rs : RuleSet) (tag : String) :
    Except RuleError RuleSet := do
  let filtered ← filterRulesFold fuel rs.rules tag
  RuleSet.build fuel supply filtered

mutual
/-- Whether any `Subscope` node occurs in a statement tree (root
included). -/
def Statement.hasSubscopeNode : Statement → Bool
  | .And cs _ => cs.hasSubscopeNode
  | .Or cs _ => cs.hasSubscopeNode
  | .Not c _ => c.hasSubscopeNode
  | .Some _ cs _ => cs.hasSubscopeNode
  | .Range _ _ _ _ => false
  | .Subscope _ _ => true
  | .Feature _ => false
/-- Whether any `Subscope` node occurs below a child list. -/
def StatementList.hasSubscopeNode : StatementList → Bool
  | .nil => false
  | .cons s rest => s.hasSubscopeNode || rest.hasSubscopeNode
end

mutual
/-- Whether the leaf `MatchedRule name` occurs in a statement tree. -/
def Statement.hasMatchedLeaf (name : String) : Statement → Bool
  | .And cs _ => cs.hasMatchedLeaf name
  | .Or cs _ => cs.hasMatchedLeaf name
  | .Not c _ => c.hasMatchedLeaf name
  | .Some _ cs _ => cs.hasMatchedLeaf name
  | .Range _ _ _ _ => false
  | .Subscope _ c => c.hasMatchedLeaf name
  | .Feature f => f == .matchedRule name
/-- Whether the leaf `MatchedRule name` occurs below a child list. -/
def StatementList.hasMatchedLeaf (name : String) : StatementList → Bool
  | .nil => false
  | .cons s rest => s.hasMatchedLeaf name || rest.hasMatchedLeaf name
end

mutual
/-- `StatementOccurs t s` : `t` occurs as a subterm of the statement `s`. -/
inductive StatementOccurs : Statement → Statement → Prop where
  | refl (s : Statement) : StatementOccurs s s
  | inAnd (t : Statement) (cs : StatementList) (d : Option String) :
      StatementListOccurs t cs → StatementOccurs t (.And cs d)
  | inOr (t : Statement) (cs : StatementList) (d : Option String) :
      StatementListOccurs t cs → StatementOccurs t (.Or cs d)
  | inNot (t c : Statement) (d : Option String) :
      StatementOccurs t c → StatementOccurs t (.Not c d)
  | inSome (t : Statement) (n : Int) (cs : StatementList) (d : Option String) :
      StatementListOccurs t cs → StatementOccurs t (.Some n cs d)
  | inSubscope (t c : Statement) (sc : String) :
      StatementOccurs t c → StatementOccurs t (.Subscope sc c)
/-- `StatementListOccurs t cs` : `t` occurs as a subterm of a member of
`cs`. -/
inductive StatementListOccurs : Statement → StatementList → Prop where
  | head (t s : Statement) (rest : StatementList) :
      StatementOccurs t s → StatementListOccurs t (.cons s rest)
  | tail (t s : Statement) (rest : StatementList) :
      StatementListOccurs t rest → StatementListOccurs t (.cons s rest)
end

/-- `d` is a direct dependency of `r`: some resolved dependency name of `r`
(a `MatchedRule` value after namespace expansion against `idx`) is the name
under which `rules_by_name` yields `d`. -/
def DirectDep (rules : List Rule) (idx : List (String × List Rule)) (r d : Rule) : Prop :=
  ∃ n, n ∈ get_dependencies idx r ∧ findRule rules n = some d

/-- The name `x` names a rule whose resolved dependencies all name rules
whose names are in `w` (the closure property `get_rules_and_dependencies`
establishes for its `wanted` set). -/
def ClosedIn (rules : List Rule) (idx : List (String × List Rule)) (w : List String)
    (x : String) : Prop :=
  ∃ rx, findRule rules x = some rx ∧
    ∀ n ∈ get_dependencies idx rx, ∃ d, findRule rules n = some d ∧ d.name ∈ w

/-- Every resolved dependency of every element of `L` names a rule sitting
at a strictly earlier index of `L` — the ordering guarantee of
`topologically_order_rules`. -/
def DepsEarlier (rules : List Rule) (idx : List (String × List Rule)) (L : List Rule) : Prop :=
  ∀ i B, L.get? i = some B → ∀ n ∈ get_dependencies idx B,
    ∃ D j, findRule rules n = some D ∧ j < i ∧ L.get? j = some D

/-- The invariant of the post-order walk of `topologically_order_rules`:
`seen` holds exactly the names of the output rules, the output rules come
from the walked rule list, and dependencies sit at earlier output
indices. -/
def TopoInv (rules : List Rule) (idx : List (String × List Rule)) (st : TopoState) : Prop :=
  (∀ x, x ∈ st.seen ↔ ∃ X ∈ st.ret, X.name = x) ∧
  (∀ X ∈ st.ret, X ∈ rules) ∧
  DepsEarlier rules idx st.ret

/-! ## Generic fold lemmas -/

theorem foldlPreserves {α β : Type _} (step : β → α → β) (P : β → Prop)
    (h : ∀ b a, P b → P (step b a)) :
    ∀ (l : List α) (b : β), P b → P (List.foldl step b l)
  | [], _, hb => hb
  | a :: l, b, hb => foldlPreserves step P h l (step b a) (h b a hb)

theorem foldlAtIndex {α β : Type _} (step : β → α → β) :
    ∀ (l : List α) (i : Nat) (x : α), l.get? i = some x → ∀ b : β,
      List.foldl step b l =
        List.foldl step (step (List.foldl step b (l.take i)) x) (l.drop (i + 1))
  | [], i, x, hx, b => by simp at hx
  | a :: l, 0, x, hx, b => by
    simp only [List.get?] at hx
    cases hx
    simp [List.foldl]
  | a :: l, i + 1, x, hx, b => by
    simp only [List.get?] at hx
    simpa [List.foldl] using foldlAtIndex step l i x hx (step b a)

/-! ## FeatureSet lemmas -/

theorem FeatureSet.find_add (fs : FeatureSet) (f : Feature) (va : Nat) (g : Feature) :
    (fs.add f va).find g =
      if g = f then
        some (match fs.find f with
          | some l => if va ∈ l then l else l ++ [va]
          | none => [va])
      else fs.find g := by
  induction fs with
  | nil =>
    simp only [FeatureSet.add, FeatureSet.find]
    by_cases h : g = f
    · subst h
      simp [FeatureSet.find]
    · rw [if_neg (fun hh : f = g => h hh.symm), if_neg h]
  | cons p rest ih =>
    obtain ⟨pf, pl⟩ := p
    by_cases hpf : pf = f
    · subst hpf
      simp only [FeatureSet.add, if_pos rfl, FeatureSet.find]
      by_cases hg : pf = g
      · subst hg
        simp
      · rw [if_neg hg, if_neg (fun hh : g = pf => hg hh.symm), if_neg hg]
    · simp only [FeatureSet.add, if_neg hpf, FeatureSet.find]
      by_cases hg : pf = g
      · have hgf : ¬ g = f := fun hh => hpf (hg.trans hh)
        rw [if_pos hg, if_neg hgf, if_pos hg]
      · rw [if_neg hg, if_neg hg, ih]

theorem FeatureSet.memB_add_iff (fs : FeatureSet) (f : Feature) (va : Nat)
    (g : Feature) (w : Nat) :
    (fs.add g w).memB f va = true ↔ (fs.memB f va = true ∨ (f = g ∧ va = w)) := by
  unfold FeatureSet.memB
  rw [FeatureSet.find_add]
  by_cases h : f = g
  · subst h
    rw [if_pos rfl]
    cases hf : fs.find f with
    | none => simp [List.elem_iff]
    | some l =>
      by_cases hw : w ∈ l
      · simp only [if_pos hw, List.elem_iff]
        constructor
        · intro hv
          exact Or.inl hv
        · rintro (hv | ⟨-, rfl⟩)
          · exact hv
          · exact hw
      · simp only [if_neg hw, List.elem_iff, List.mem_append, List.mem_singleton]
        constructor
        · rintro (hv | rfl)
          · exact Or.inl hv
          · exact Or.inr ⟨by trivial, rfl⟩
        · rintro (hv | ⟨-, rfl⟩)
          · exact Or.inl hv
          · exact Or.inr rfl
  · rw [if_neg (fun hh : f = g => h hh)]
    simp [h]

theorem FeatureSet.memB_add_self (fs : FeatureSet) (f : Feature) (va : Nat) :
    (fs.add f va).memB f va = true := by
  rw [FeatureSet.memB_add_iff]
  exact Or.inr ⟨rfl, rfl⟩

theorem FeatureSet.memB_add_of (fs : FeatureSet) (f : Feature) (va : Nat)
    (g : Feature) (w : Nat) (h : fs.memB f va = true) :
    (fs.add g w).memB f va = true := by
  rw [FeatureSet.memB_add_iff]
  exact Or.inl h

theorem memB_foldl_add_of (pairs : List (Feature × Nat)) (fs : FeatureSet)
    (f : Feature) (va : Nat) (h : fs.memB f va = true) :
    (List.foldl (fun fs fv => FeatureSet.add fs fv.1 fv.2) fs pairs).memB f va = true := by
  refine foldlPreserves _ (fun b => b.memB f va = true) ?_ pairs fs h
  intro b a hb
  exact FeatureSet.memB_add_of b f va a.1 a.2 hb

theorem memB_foldl_add_mem (pairs : List (Feature × Nat)) (fs : FeatureSet)
    (f : Feature) (va : Nat) (h : (f, va) ∈ pairs) :
    (List.foldl (fun fs fv => FeatureSet.add fs fv.1 fv.2) fs pairs).memB f va = true := by
  induction pairs generalizing fs with
  | nil => cases h
  | cons p rest ih =>
    rcases List.mem_cons.mp h with h | h
    · subst h
      exact memB_foldl_add_of rest _ f va (FeatureSet.memB_add_self fs f va)
    · exact ih _ h

theorem memB_resfold_mem (res : List (Nat × Nat)) (fs : FeatureSet) (rn : String)
    (va r : Nat) (h : (va, r) ∈ res) :
    (List.foldl (fun fs vr => FeatureSet.add fs (.matchedRule rn) vr.1) fs res).memB
      (.matchedRule rn) va = true := by
  induction res generalizing fs with
  | nil => cases h
  | cons p rest ih =>
    rcases List.mem_cons.mp h with h | h
    · subst h
      refine foldlPreserves _
        (fun b : FeatureSet => FeatureSet.memB b (.matchedRule rn) va = true) ?_ rest _
        (FeatureSet.memB_add_self fs (.matchedRule rn) va)
      intro b a hb
      exact FeatureSet.memB_add_of _ _ _ _ _ hb
    · exact ih _ h

theorem memB_matchfold_of (ms : MatchResults) (fs : FeatureSet) (f : Feature) (va : Nat)
    (h : fs.memB f va = true) :
    (List.foldl
      (fun fs rm =>
        List.foldl (fun fs vr => FeatureSet.add fs (.matchedRule rm.1) vr.1) fs rm.2)
      fs ms).memB f va = true := by
  refine foldlPreserves _ (fun b : FeatureSet => FeatureSet.memB b f va = true) ?_ ms fs h
  intro b a hb
  refine foldlPreserves _ (fun b : FeatureSet => FeatureSet.memB b f va = true) ?_ a.2 b hb
  intro b' a' hb'
  exact FeatureSet.memB_add_of _ _ _ _ _ hb'

theorem memB_matchfold_mem (ms : MatchResults) (fs : FeatureSet) (rn : String)
    (res : List (Nat × Nat)) (va r : Nat) (h1 : (rn, res) ∈ ms) (h2 : (va, r) ∈ res) :
    (List.foldl
      (fun fs rm =>
        List.foldl (fun fs vr => FeatureSet.add fs (.matchedRule rm.1) vr.1) fs rm.2)
      fs ms).memB (.matchedRule rn) va = true := by
  induction ms generalizing fs with
  | nil => cases h1
  | cons p rest ih =>
    rcases List.mem_cons.mp h1 with h | h
    · subst h
      exact memB_matchfold_of rest _ _ _ (memB_resfold_mem res fs rn va r h2)
    · exact ih _ h

theorem processBasicBlock_fst (em : EngineMatch) (bbRules : List Rule)
    (acc : FeatureSet × MatchResults) (bb : BasicBlockData) :
    (processBasicBlock em bbRules acc bb).1 =
      List.foldl
        (fun fs rm =>
          List.foldl (fun fs vr => FeatureSet.add fs (.matchedRule rm.1) vr.1) fs rm.2)
        (List.foldl (fun fs fv => FeatureSet.add fs fv.1 fv.2) acc.1 bb.allPairs)
        ((em bbRules (bbFeatureSetOf bb) bb.address).2) := rfl

theorem processBasicBlock_mono (em : EngineMatch) (bbRules : List Rule)
    (acc : FeatureSet × MatchResults) (bb : BasicBlockData) (f : Feature) (va : Nat)
    (h : acc.1.memB f va = true) :
    (processBasicBlock em bbRules acc bb).1.memB f va = true := by
  rw [processBasicBlock_fst]
  exact memB_matchfold_of _ _ _ _ (memB_foldl_add_of _ _ _ _ h)

/-- C2: in `find_function_capabilities`, every (feature, address) pair
produced by the extractor for a basic block or for an instruction within it
is added to both the basic-block feature set and the function feature set,
and for every rule matched at basic-block scope, `MatchedRule(rule_name)`
at each of the match addresses is added to the function feature set that
function-scope rules are then matched against (part three: the function
match runs on exactly that accumulated feature set). -/
theorem claim_C2_function_driver (em : EngineMatch) (rs : RuleSet) (f : FunctionData)
    (i : Nat) (bb : BasicBlockData) (hbb : f.basicBlocks.get? i = some bb) :
    (∀ feat va, (feat, va) ∈ bb.allPairs →
        (bbFeatureSetOf bb).memB feat va = true ∧
        (functionLoopState em rs f).1.memB feat va = true) ∧
    (∀ rn res va r, (rn, res) ∈ (em rs.basicBlockRules (bbFeatureSetOf bb) bb.address).2 →
        (va, r) ∈ res →
        (functionLoopState em rs f).1.memB (.matchedRule rn) va = true) ∧
    (find_function_capabilities em rs f).1 =
      (em rs.functionRules (functionLoopState em rs f).1 f.address).2 := by
  have hdecomp :
      functionLoopState em rs f =
        List.foldl (processBasicBlock em rs.basicBlockRules)
          (processBasicBlock em rs.basicBlockRules
            (List.foldl (processBasicBlock em rs.basicBlockRules)
              (List.foldl (fun fs fv => FeatureSet.add fs fv.1 fv.2) ([] : FeatureSet)
                f.features, [])
              (f.basicBlocks.take i))
            bb)
          (f.basicBlocks.drop (i + 1)) := by
    unfold functionLoopState
    exact foldlAtIndex _ _ i bb hbb _
  refine ⟨?_, ?_, rfl⟩
  · intro feat va hmem
    refine ⟨memB_foldl_add_mem _ _ _ _ hmem, ?_⟩
    rw [hdecomp]
    refine foldlPreserves _
      (fun st : FeatureSet × MatchResults => FeatureSet.memB st.1 feat va = true)
      (fun b a hb => processBasicBlock_mono em _ b a feat va hb) _ _ ?_
    show FeatureSet.memB (processBasicBlock em rs.basicBlockRules _ bb).1 feat va = true
    rw [processBasicBlock_fst]
    exact memB_matchfold_of _ _ _ _ (memB_foldl_add_mem _ _ _ _ hmem)
  · intro rn res va r h1 h2
    rw [hdecomp]
    refine foldlPreserves _
      (fun st : FeatureSet × MatchResults => FeatureSet.memB st.1 (.matchedRule rn) va = true)
      (fun b a hb => processBasicBlock_mono em _ b a _ va hb) _ _ ?_
    show FeatureSet.memB (processBasicBlock em rs.basicBlockRules _ bb).1 (.matchedRule rn) va = true
    rw [processBasicBlock_fst]
    exact memB_matchfold_mem _ _ _ _ _ _ h1 h2

/-- Witness for C2 at a concrete extractor, ruleset and match function. -/
theorem claim_C2_witness :
    (bbFeatureSetOf ⟨2, [(.mnemonic "mov", 5)], [[(.api "A", 6)]]⟩).memB (.api "A") 6 = true ∧
    (functionLoopState (fun _ fs _ => (fs, [("r", [(7, 0)])])) ⟨[], [], [], [], []⟩
      ⟨1, [], [⟨2, [(.mnemonic "mov", 5)], [[(.api "A", 6)]]⟩]⟩).1.memB (.api "A") 6 = true ∧
    (functionLoopState (fun _ fs _ => (fs, [("r", [(7, 0)])])) ⟨[], [], [], [], []⟩
      ⟨1, [], [⟨2, [(.mnemonic "mov", 5)], [[(.api "A", 6)]]⟩]⟩).1.memB
        (.matchedRule "r") 7 = true := by
  have h := claim_C2_function_driver (fun _ fs _ => (fs, [("r", [(7, 0)])]))
    ⟨[], [], [], [], []⟩ ⟨1, [], [⟨2, [(.mnemonic "mov", 5)], [[(.api "A", 6)]]⟩]⟩
    0 ⟨2, [(.mnemonic "mov", 5)], [[(.api "A", 6)]]⟩ rfl
  have h1 := h.1 (.api "A") 6 (by simp [BasicBlockData.allPairs])
  have h2 := h.2.1 "r" [(7, 0)] 7 0 (by simp) (by simp)
  exact ⟨h1.1, h1.2, h2⟩

theorem find_ensure (fs : FeatureSet) (f g : Feature) :
    (fs ++ [(f, ([] : List Nat))] : FeatureSet).find g =
      match fs.find g with
      | some l => some l
      | none => if g = f then some [] else none := by
  induction fs with
  | nil =>
    simp only [List.nil_append, FeatureSet.find]
    by_cases h : g = f
    · subst h
      simp [FeatureSet.find]
    · rw [if_neg (fun hh : f = g => h hh.symm), if_neg h]
  | cons p rest ih =>
    obtain ⟨pf, pl⟩ := p
    simp only [List.cons_append, FeatureSet.find]
    by_cases h : pf = g
    · rw [if_pos h, if_pos h]
    · rw [if_neg h, if_neg h]
      exact ih

theorem fileStep_find_none (fs : FeatureSet) (g : Feature) (ova : Option Nat) (feat : Feature) :
    ((fileFeatureStep fs (g, ova)).find feat = none) ↔
      (fs.find feat = none ∧ feat ≠ g) := by
  unfold fileFeatureStep
  by_cases ht : vaTruthy ova
  · rw [if_pos ht]
    rw [FeatureSet.find_add]
    by_cases h : feat = g
    · simp [h]
    · simp [h]
  · rw [if_neg ht]
    cases hg : fs.find g with
    | some l =>
      constructor
      · intro hn
        refine ⟨hn, ?_⟩
        rintro rfl
        rw [hn] at hg
        cases hg
      · exact fun hp => hp.1
    | none =>
      rw [find_ensure]
      cases hf : fs.find feat with
      | some l => simp
      | none =>
        by_cases h : feat = g
        · simp [h]
        · simp [h]

theorem fileStep_memB (fs : FeatureSet) (g : Feature) (ova : Option Nat)
    (feat : Feature) (v : Nat) :
    ((fileFeatureStep fs (g, ova)).memB feat v = true) ↔
      (fs.memB feat v = true ∨ (feat = g ∧ ova = some v ∧ v ≠ 0)) := by
  unfold fileFeatureStep
  by_cases ht : vaTruthy ova
  · rw [if_pos ht]
    rw [FeatureSet.memB_add_iff]
    cases ova with
    | none => simp [vaTruthy] at ht
    | some w =>
      have hw : w ≠ 0 := by
        simpa [vaTruthy] using ht
      simp only [Option.getD]
      constructor
      · rintro (h | ⟨rfl, rfl⟩)
        · exact Or.inl h
        · exact Or.inr ⟨rfl, rfl, hw⟩
      · rintro (h | ⟨rfl, hov, hv⟩)
        · exact Or.inl h
        · cases hov
          exact Or.inr ⟨rfl, rfl⟩
  · rw [if_neg ht]
    have hfalse : ¬ (feat = g ∧ ova = some v ∧ v ≠ 0) := by
      rintro ⟨-, rfl, hv⟩
      simp [vaTruthy, hv] at ht
    cases hg : fs.find g with
    | some l => simp [hfalse]
    | none =>
      unfold FeatureSet.memB
      rw [find_ensure]
      cases hf : fs.find feat with
      | some l => simp [hfalse]
      | none =>
        by_cases h : feat = g
        · subst h
          simp [hfalse, List.elem_iff]
          intro hov
          subst hov
          by_contra hv
          exact ht (by simp [vaTruthy, hv])
        · simp [h, hfalse]

theorem buildFileFeaturesAux (reports : List (Feature × Option Nat)) (fs : FeatureSet)
    (feat : Feature) :
    ((List.foldl fileFeatureStep fs reports).find feat = none ↔
      (fs.find feat = none ∧ ∀ va, ¬ (feat, va) ∈ reports)) ∧
    (∀ v, (List.foldl fileFeatureStep fs reports).memB feat v = true ↔
      (fs.memB feat v = true ∨ ((feat, some v) ∈ reports ∧ v ≠ 0))) := by
  induction reports generalizing fs with
  | nil => simp
  | cons p rest ih =>
    obtain ⟨g, ova⟩ := p
    have ihs := ih (fileFeatureStep fs (g, ova))
    constructor
    · rw [List.foldl_cons, ihs.1, fileStep_find_none]
      constructor
      · rintro ⟨⟨h1, h2⟩, h3⟩
        refine ⟨h1, ?_⟩
        intro va hva
        rcases List.mem_cons.mp hva with hh | hh
        · exact h2 (by cases hh; rfl)
        · exact h3 va hh
      · rintro ⟨h1, h2⟩
        refine ⟨⟨h1, ?_⟩, ?_⟩
        · rintro rfl
          exact h2 ova (List.mem_cons_self _ _)
        · exact fun va hr => h2 va (List.mem_cons_of_mem _ hr)
    · intro v
      rw [List.foldl_cons, (ih (fileFeatureStep fs (g, ova))).2 v, fileStep_memB]
      constructor
      · rintro ((h | ⟨rfl, rfl, hv⟩) | ⟨hr, hv⟩)
        · exact Or.inl h
        · exact Or.inr ⟨List.mem_cons_self _ _, hv⟩
        · exact Or.inr ⟨List.mem_cons_of_mem _ hr, hv⟩
      · rintro (h | ⟨hm, hv⟩)
        · exact Or.inl (Or.inl h)
        · rcases List.mem_cons.mp hm with hh | hh
          · cases hh
            exact Or.inl (Or.inr ⟨rfl, rfl, hv⟩)
          · exact Or.inr ⟨hh, hv⟩

/-- C9: in `find_file_capabilities`, a file feature reported by the
extractor with address `None` or address `0` is recorded with an empty
address set (address 0 is treated the same as no address); only features
reported with a nonzero address have that address added to their set (so a
feature reported both with and without an address keeps exactly its nonzero
addresses); and the file rules are matched against the resulting index
merged with the promoted function features. -/
theorem claim_C9_file_feature_addresses (reports : List (Feature × Option Nat))
    (feat : Feature) :
    ((∃ va, (feat, va) ∈ reports) →
      ∃ s, (buildFileFeatures reports).find feat = some s ∧
        (∀ v, v ∈ s ↔ ((feat, some v) ∈ reports ∧ v ≠ 0))) ∧
    (((∃ va, (feat, va) ∈ reports) ∧
        (∀ va, (feat, va) ∈ reports → vaTruthy va = false)) →
      (buildFileFeatures reports).find feat = some []) ∧
    (∀ (em : EngineMatch) (rs : RuleSet) (ff : FeatureSet),
      (find_file_capabilities em rs reports ff).1 =
        (em rs.fileRules (FeatureSet.update (buildFileFeatures reports) ff) 0).2) := by
  have aux := buildFileFeaturesAux reports ([] : FeatureSet) feat
  have key : (∃ va, (feat, va) ∈ reports) →
      ∃ s, (buildFileFeatures reports).find feat = some s ∧
        (∀ v, v ∈ s ↔ ((feat, some v) ∈ reports ∧ v ≠ 0)) := by
    rintro ⟨va, hva⟩
    have hne : ¬ (buildFileFeatures reports).find feat = none := by
      intro hn
      exact ((buildFileFeaturesAux reports [] feat).1.mp hn).2 va hva
    cases hs : (buildFileFeatures reports).find feat with
    | none => exact absurd hs hne
    | some s =>
      refine ⟨s, rfl, ?_⟩
      intro v
      have hm := aux.2 v
      unfold buildFileFeatures at hs
      unfold FeatureSet.memB at hm
      rw [hs] at hm
      have hbase :
          (match FeatureSet.find ([] : FeatureSet) feat with
            | some l => l.contains v
            | none => false) = false := rfl
      rw [hbase] at hm
      simp only [Bool.false_eq_true, false_or] at hm
      rw [← hm, List.elem_iff]
  refine ⟨key, ?_, fun em rs ff => rfl⟩
  rintro ⟨hex, hfalsy⟩
  obtain ⟨s, hs, hiff⟩ := key hex
  have : s = [] := by
    rw [List.eq_nil_iff_forall_not_mem]
    intro v hv
    obtain ⟨hmem, hv0⟩ := (hiff v).mp hv
    have := hfalsy (some v) hmem
    simp [vaTruthy, hv0] at this
  rw [hs, this]

/-- Witness for C9 at a concrete report list. -/
theorem claim_C9_witness :
    (buildFileFeatures
        [(.sectionName ".text", none), (.sectionName ".text", some 0), (.api "F", some 5)]).find
      (.sectionName ".text") = some [] ∧
    (buildFileFeatures
        [(.sectionName ".text", none), (.sectionName ".text", some 0), (.api "F", some 5)]).memB
      (.api "F") 5 = true := by
  have h1 := (claim_C9_file_feature_addresses
    [(.sectionName ".text", none), (.sectionName ".text", some 0), (.api "F", some 5)]
    (.sectionName ".text")).2.1
    ⟨⟨none, by simp⟩, by
      intro va hva
      simp at hva
      rcases hva with rfl | rfl <;> rfl⟩
  have h2 := (claim_C9_file_feature_addresses
    [(.sectionName ".text", none), (.sectionName ".text", some 0), (.api "F", some 5)]
    (.api "F")).1 ⟨some 5, by simp⟩
  obtain ⟨s, hs, hiff⟩ := h2
  refine ⟨h1, ?_⟩
  unfold FeatureSet.memB
  rw [hs]
  exact List.elem_iff.mpr ((hiff 5).mpr ⟨by simp, by decide⟩)

/-- C7 counterexample: with a directory containing an invalid rule file
followed by a valid one, `get_rules` raises `InvalidRuleWithPath` for the
first file; it does not return the rules of the other valid files. -/
theorem claim_C7_counterexample :
    get_rules [("a.yml", .error (.invalidRule "m")),
        ("b.yml", .ok ⟨"g", "function", .Feature (.api "x"), .nil⟩)] =
      .error (.invalidRuleWithPath "a.yml" "m") := rfl

theorem get_rules_step_ok (acc : List Rule) (p : String) (r : Rule) :
    (do
      let rule ← from_yaml_file p (.ok r)
      let rule := { rule with meta := rule.meta.set "capa/path" (.str p) }
      let rule :=
        if is_nursery_rule_path p then
          { rule with meta := rule.meta.set "capa/nursery" (.bool true) }
        else rule
      pure (acc ++ [rule]) : Except RuleError (List Rule)) =
      .ok (acc ++
        [if is_nursery_rule_path p then
          { r with meta := (r.meta.set "capa/path" (.str p)).set "capa/nursery" (.bool true) }
        else { r with meta := r.meta.set "capa/path" (.str p) }]) := by
  by_cases h : is_nursery_rule_path p <;> simp [from_yaml_file, Except.bind, h]

theorem get_rules_aux_error (post : List (String × Except RuleError Rule))
    (p m : String) :
    ∀ (pre : List (String × Except RuleError Rule)) (acc : List Rule),
      (∀ x ∈ pre, ∃ r, x.2 = .ok r) →
      List.foldlM
        (fun acc pf => do
          let rule ← from_yaml_file pf.1 pf.2
          let rule := { rule with meta := rule.meta.set "capa/path" (.str pf.1) }
          let rule :=
            if is_nursery_rule_path pf.1 then
              { rule with meta := rule.meta.set "capa/nursery" (.bool true) }
            else rule
          pure (acc ++ [rule]))
        acc (pre ++ (p, .error (.invalidRule m)) :: post) =
        .error (.invalidRuleWithPath p m)
  | [], acc, _ => by
    simp only [List.nil_append, List.foldlM_cons]
    rfl
  | x :: pre, acc, hok => by
    obtain ⟨r, hr⟩ := hok x (List.mem_cons_self x pre)
    obtain ⟨xp, xo⟩ := x
    cases hr
    rw [List.cons_append, List.foldlM_cons, get_rules_step_ok]
    exact get_rules_aux_error post p m pre _
      (fun y hy => hok y (List.mem_cons_of_mem _ hy))

theorem get_rules_aux_ok :
    ∀ (files : List (String × Except RuleError Rule)) (acc : List Rule),
      (∀ x ∈ files, ∃ r, x.2 = .ok r) →
      ∃ l, List.foldlM
        (fun acc pf => do
          let rule ← from_yaml_file pf.1 pf.2
          let rule := { rule with meta := rule.meta.set "capa/path" (.str pf.1) }
          let rule :=
            if is_nursery_rule_path pf.1 then
              { rule with meta := rule.meta.set "capa/nursery" (.bool true) }
            else rule
          pure (acc ++ [rule]))
        acc files = .ok l ∧ l.length = acc.length + files.length
  | [], acc, _ => ⟨acc, by simp [List.foldlM_nil, pure, Except.pure]⟩
  | x :: files, acc, hok => by
    obtain ⟨r, hr⟩ := hok x (List.mem_cons_self x files)
    obtain ⟨xp, xo⟩ := x
    cases hr
    rw [List.foldlM_cons, get_rules_step_ok]
    obtain ⟨l, hl, hlen⟩ := get_rules_aux_ok files
      (acc ++
        [if is_nursery_rule_path xp then
          { r with meta := (r.meta.set "capa/path" (.str xp)).set "capa/nursery" (.bool true) }
        else { r with meta := r.meta.set "capa/path" (.str xp) }])
      (fun y hy => hok y (List.mem_cons_of_mem _ hy))
    refine ⟨l, hl, ?_⟩
    rw [hlen]
    simp
    omega

/-- C7 amended: one invalid rule file aborts the whole `get_rules` call
(the exception, carrying the offending path, propagates to the caller; no
list is returned and the files after the invalid one are not loaded); when
every file is valid, `get_rules` returns one rule per file. -/
theorem claim_C7_amended (pre post : List (String × Except RuleError Rule))
    (p m : String) (hok : ∀ x ∈ pre, ∃ r, x.2 = .ok r)
    (files : List (String × Except RuleError Rule))
    (hall : ∀ x ∈ files, ∃ r, x.2 = .ok r) :
    get_rules (pre ++ (p, .error (.invalidRule m)) :: post) =
      .error (.invalidRuleWithPath p m) ∧
    ∃ l, get_rules files = .ok l ∧ l.length = files.length := by
  constructor
  · exact get_rules_aux_error post p m pre [] hok
  · obtain ⟨l, hl, hlen⟩ := get_rules_aux_ok files [] hall
    exact ⟨l, hl, by simpa using hlen⟩

/-- Witness for C7 amended at concrete file lists. -/
theorem claim_C7_witness :
    get_rules [("x.yml", .ok ⟨"g", "function", .Feature (.api "x"), .nil⟩),
        ("bad.yml", .error (.invalidRule "broken"))] =
      .error (.invalidRuleWithPath "bad.yml" "broken") ∧
    ∃ l, get_rules [("x.yml", .ok ⟨"g", "function", .Feature (.api "x"), .nil⟩)] = .ok l ∧
      l.length = 1 := by
  have h := claim_C7_amended
    [("x.yml", .ok ⟨"g", "function", .Feature (.api "x"), .nil⟩)] []
    "bad.yml" "broken"
    (by
      intro x hx
      simp at hx
      subst hx
      exact ⟨_, rfl⟩)
    [("x.yml", .ok ⟨"g", "function", .Feature (.api "x"), .nil⟩)]
    (by
      intro x hx
      simp at hx
      subst hx
      exact ⟨_, rfl⟩)
  exact h

/-- C8 counterexample: two rules sharing a name make `RuleSet`
construction raise `InvalidRule` (not `InvalidRuleSet`). -/
theorem claim_C8_counterexample :
    RuleSet.build 10 (fun n => toString n)
        [⟨"x", "function", .Feature (.api "a"), .nil⟩,
         ⟨"x", "function", .Feature (.api "a"), .nil⟩] =
      .error (.invalidRule "duplicate rule name: x") := rfl

theorem exceptBind_ok {α β : Type _} (a : α) (f : α → Except RuleError β) :
    (Except.ok a >>= f) = f a := rfl

theorem exceptBind_error {α β : Type _} (e : RuleError) (f : α → Except RuleError β) :
    ((Except.error e : Except RuleError α) >>= f) = .error e := rfl

theorem ensure_unique_error_of_dup :
    ∀ (rules : List Rule) (seen : List String),
      ((∃ r ∈ rules, r.name ∈ seen) ∨ ¬ (rules.map Rule.name).Nodup) →
      ∃ n, ensureRulesAreUniqueAux seen rules =
        .error (.invalidRule ("duplicate rule name: " ++ n))
  | [], seen, h => by
    rcases h with ⟨r, hr, -⟩ | h
    · cases hr
    · exact absurd (by simp : (List.map Rule.name ([] : List Rule)).Nodup) h
  | r :: rest, seen, h => by
    by_cases hs : seen.contains r.name
    · refine ⟨r.name, ?_⟩
      unfold ensureRulesAreUniqueAux
      rw [if_pos hs]
    · have hs' : ¬ r.name ∈ seen := by
        simpa [List.elem_iff] using hs
      have hrec : (∃ r' ∈ rest, r'.name ∈ r.name :: seen) ∨ ¬ (rest.map Rule.name).Nodup := by
        rcases h with ⟨r', hr', hseen⟩ | h
        · rcases List.mem_cons.mp hr' with rfl | hr'
          · exact absurd hseen hs'
          · exact Or.inl ⟨r', hr', List.mem_cons_of_mem _ hseen⟩
        · rw [List.map_cons, List.nodup_cons] at h
          push_neg at h
          by_cases hmem : r.name ∈ rest.map Rule.name
          · obtain ⟨r', hr', hname⟩ := List.mem_map.mp hmem
            exact Or.inl ⟨r', hr', by rw [hname]; exact List.mem_cons_self _ _⟩
          · exact Or.inr (h hmem)
      obtain ⟨n, hn⟩ := ensure_unique_error_of_dup rest (r.name :: seen) hrec
      refine ⟨n, ?_⟩
      unfold ensureRulesAreUniqueAux
      rw [if_neg hs]
      exact hn

theorem build_error_of_unique_error (fuel : Nat) (supply : Nat → String)
    (rules : List Rule) (e : RuleError)
    (h : ensure_rules_are_unique rules = .error e) :
    RuleSet.build fuel supply rules = .error e := by
  unfold RuleSet.build
  rw [h]
  rfl

theorem depsInner_error_shape :
    ∀ (deps : List String) (rules : List Rule) (r : Rule) (e : RuleError),
      List.foldlM
        (fun _ dep =>
          match findRule rules dep with
          | some _ => (pure () : Except RuleError Unit)
          | none =>
            Except.error (.invalidRule
              ("rule \"" ++ r.name ++ "\" depends on missing rule \"" ++ dep ++ "\"")))
        () deps = .error e →
      ∃ dn, e = .invalidRule ("rule \"" ++ r.name ++ "\" depends on missing rule \"" ++ dn ++ "\"")
  | [], rules, r, e, h => by
    simp [List.foldlM_nil, pure, Except.pure] at h
  | d :: ds, rules, r, e, h => by
    rw [List.foldlM_cons] at h
    cases hf : findRule rules d with
    | some rd =>
      rw [hf] at h
      exact depsInner_error_shape ds rules r e (by simpa [exceptBind_ok] using h)
    | none =>
      rw [hf] at h
      refine ⟨d, ?_⟩
      have : (Except.error
          (RuleError.invalidRule
            ("rule \"" ++ r.name ++ "\" depends on missing rule \"" ++ d ++ "\"")) :
          Except RuleError Unit) = .error e := by
        simpa [throw, throwThe, MonadExceptOf.throw, exceptBind_error] using h
      cases this
      rfl

theorem deps_error_shape :
    ∀ (rules' : List Rule) (rules : List Rule)
      (idx : List (String × List Rule)) (e : RuleError),
      List.foldlM
        (fun _ r =>
          List.foldlM
            (fun _ dep =>
              match findRule rules dep with
              | some _ => (pure () : Except RuleError Unit)
              | none =>
                Except.error (.invalidRule
                  ("rule \"" ++ r.name ++ "\" depends on missing rule \"" ++ dep ++ "\"")))
            () (get_dependencies idx r))
        () rules' = .error e →
      ∃ rn dn, e = .invalidRule ("rule \"" ++ rn ++ "\" depends on missing rule \"" ++ dn ++ "\"")
  | [], rules, idx, e, h => by
    simp [List.foldlM_nil, pure, Except.pure] at h
  | r :: rest, rules, idx, e, h => by
    rw [List.foldlM_cons] at h
    cases hi : List.foldlM
        (fun _ dep =>
          match findRule rules dep with
          | some _ => (pure () : Except RuleError Unit)
          | none =>
            Except.error (.invalidRule
              ("rule \"" ++ r.name ++ "\" depends on missing rule \"" ++ dep ++ "\"")))
        () (get_dependencies idx r) with
    | ok u =>
      rw [hi] at h
      cases u
      exact deps_error_shape rest rules idx e (by simpa [exceptBind_ok] using h)
    | error e' =>
      rw [hi] at h
      have he : e' = e := by
        simpa [exceptBind_error] using h
      subst he
      obtain ⟨dn, hdn⟩ := depsInner_error_shape _ rules r e' hi
      exact ⟨r.name, dn, hdn⟩

theorem extractAllRules_nil (supply : Nat → String) (fuel : Nat) (k : Nat)
    (done : List Rule) :
    extractAllRules supply fuel [] k done = .ok (done, k) := by
  cases fuel <;> rfl

/-- C8 amended: `RuleSet` construction rejects an empty rule list with
`InvalidRuleSet("no rules selected")`, while duplicate rule names and
dependencies on names that are neither a namespace nor a rule are rejected
earlier with `InvalidRule` (not `InvalidRuleSet`). -/
theorem claim_C8_amended :
    (∀ (fuel : Nat) (supply : Nat → String),
      RuleSet.build fuel supply [] = .error (.invalidRuleSet "no rules selected")) ∧
    (∀ (fuel : Nat) (supply : Nat → String) (rules : List Rule),
      ¬ (rules.map Rule.name).Nodup →
      ∃ n, RuleSet.build fuel supply rules =
        .error (.invalidRule ("duplicate rule name: " ++ n))) ∧
    (∀ (fuel : Nat) (supply : Nat → String) (rules rules' : List Rule) (k : Nat)
        (e : RuleError),
      ensure_rules_are_unique rules = .ok () →
      extractAllRules supply fuel rules 0 [] = .ok (rules', k) →
      ensure_rule_dependencies_are_met rules' = .error e →
      (RuleSet.build fuel supply rules = .error e ∧
        ∃ rn dn, e = .invalidRule
          ("rule \"" ++ rn ++ "\" depends on missing rule \"" ++ dn ++ "\""))) := by
  refine ⟨?_, ?_, ?_⟩
  · intro fuel supply
    unfold RuleSet.build
    rw [show ensure_rules_are_unique [] = .ok () from rfl, exceptBind_ok,
      extractAllRules_nil supply fuel 0 [], exceptBind_ok]
    rfl
  · intro fuel supply rules hdup
    obtain ⟨n, hn⟩ := ensure_unique_error_of_dup rules [] (Or.inr hdup)
    exact ⟨n, build_error_of_unique_error fuel supply rules _ hn⟩
  · intro fuel supply rules rules' k e hu hx hd
    constructor
    · unfold RuleSet.build
      rw [hu, exceptBind_ok, hx, exceptBind_ok]
      show buildRuleSetTail fuel rules' = .error e
      unfold buildRuleSetTail
      rw [hd]
      rfl
    · have hd' := hd
      unfold ensure_rule_dependencies_are_met at hd'
      exact deps_error_shape rules' rules' (index_rules_by_namespace rules') e hd' 

/-- Witness for C8 amended at concrete rule lists. -/
theorem claim_C8_witness :
    RuleSet.build 3 (fun n => toString n) [] = .error (.invalidRuleSet "no rules selected") ∧
    (∃ n, RuleSet.build 3 (fun n => toString n)
        [⟨"x", "function", .Feature (.api "a"), .nil⟩,
         ⟨"x", "function", .Feature (.api "a"), .nil⟩] =
      .error (.invalidRule ("duplicate rule name: " ++ n))) ∧
    (RuleSet.build 3 (fun n => toString n)
        [⟨"r", "function", .Feature (.matchedRule "d"), .nil⟩] =
      .error (.invalidRule "rule \"r\" depends on missing rule \"d\"") ∧
      ∃ rn dn, (RuleError.invalidRule "rule \"r\" depends on missing rule \"d\"") =
        .invalidRule ("rule \"" ++ rn ++ "\" depends on missing rule \"" ++ dn ++ "\"")) := by
  refine ⟨claim_C8_amended.1 3 (fun n => toString n), ?_, ?_⟩
  · exact claim_C8_amended.2.1 3 (fun n => toString n) _ (by decide)
  · exact claim_C8_amended.2.2 3 (fun n => toString n)
      [⟨"r", "function", .Feature (.matchedRule "d"), .nil⟩]
      [⟨"r", "function", .Feature (.matchedRule "d"), .nil⟩] 0
      (.invalidRule "rule \"r\" depends on missing rule \"d\"") rfl rfl rfl

theorem buildRuleSet_nil (fuel : Nat) (supply : Nat → String) :
    RuleSet.build fuel supply [] = .error (.invalidRuleSet "no rules selected") := by
  unfold RuleSet.build
  rw [show ensure_rules_are_unique [] = .ok () from rfl, exceptBind_ok,
    extractAllRules_nil supply fuel 0 [], exceptBind_ok]
  rfl

theorem filterFold_no_tag (fuel : Nat) (rules : List Rule) (tag : String) :
    ∀ (l : List Rule) (acc : List Rule), (∀ r ∈ l, ruleMetaHasTag r tag = false) →
      List.foldlM
        (fun acc r =>
          if ruleMetaHasTag r tag then do
            let deps ← get_rules_and_dependencies fuel rules r.name
            pure (List.foldl
              (fun (a : List Rule) (d : Rule) =>
                if a.any (fun x => x.name == d.name) then a else a ++ [d]) acc deps)
          else pure acc)
        acc l = .ok acc
  | [], acc, _ => by simp [List.foldlM_nil, pure, Except.pure]
  | r :: rest, acc, h => by
    rw [List.foldlM_cons, if_neg (by simp [h r (List.mem_cons_self r rest)]),
      show (pure acc : Except RuleError (List Rule)) = .ok acc from rfl, exceptBind_ok]
    exact filterFold_no_tag fuel rules tag rest acc
      (fun r' hr' => h r' (List.mem_cons_of_mem _ hr'))

/-- C10: when a tag occurs in no string-valued meta field of any rule of
the set, `filter_rules_by_meta` selects nothing and therefore raises
`InvalidRuleSet` (from constructing a `RuleSet` over an empty selection)
rather than returning an empty `RuleSet`. -/
theorem claim_C10_filter_empty (fuel : Nat) (supply : Nat → String) (rs : RuleSet)
    (tag : String) (h : ∀ r ∈ rs.rules, ruleMetaHasTag r tag = false) :
    filter_rules_by_meta fuel supply rs tag = .error (.invalidRuleSet "no rules selected") := by
  have hfold : filterRulesFold fuel rs.rules tag = .ok [] := by
    unfold filterRulesFold
    exact filterFold_no_tag fuel rs.rules tag rs.rules [] h
  unfold filter_rules_by_meta
  rw [hfold, exceptBind_ok]
  exact buildRuleSet_nil fuel supply

/-- Witness for C10 at a concrete ruleset and tag. -/
theorem claim_C10_witness :
    filter_rules_by_meta 5 (fun n => toString n)
        ⟨[], [], [], [⟨"g", "function", .Feature (.api "x"),
          .cons "author" (.str "someone") .nil⟩], []⟩ "zzz" =
      .error (.invalidRuleSet "no rules selected") := by
  refine claim_C10_filter_empty 5 (fun n => toString n) _ "zzz" ?_
  intro r hr
  simp at hr
  subst hr
  rfl

/-- C6: a rule document whose single top-level features entry is a
`function` subscope is accepted by `from_dict` with a top-level `Subscope`
statement — the `isinstance(statements[0], ceng.Subscope)` guard runs on
the raw parsed node and never fires, contradicting the documented intent of
its own error message ("top level statement may not be a subscope"). -/
theorem claim_C6_bug_eval :
    from_dict (.map (.cons "rule"
        (.map (.cons "meta"
            (.map (.cons "name" (.str "t") (.cons "scope" (.str "file") .nil)))
          (.cons "features"
            (.list (.cons
              (.map (.cons "function"
                (.list (.cons (.map (.cons "api" (.str "CreateFile") .nil)) .nil)) .nil))
              .nil))
            .nil)))
        .nil)) =
      .ok ⟨"t", "file", .Subscope FUNCTION_SCOPE (.Feature (.api "CreateFile")),
        .cons "name" (.str "t") (.cons "scope" (.str "file") .nil)⟩ ∧
    (Statement.Subscope FUNCTION_SCOPE (.Feature (.api "CreateFile"))).hasSubscopeNode = true := by
  exact ⟨rfl, rfl⟩

theorem parseRangeBound_shape (spec msg : String) (r : Option Int)
    (h : parseRangeBound spec msg = .ok r) :
    (∀ a, r = some a → 0 ≤ a) ∧ (r = none ↔ spec = "") := by
  unfold parseRangeBound at h
  by_cases hs : spec = ""
  · rw [if_pos hs] at h
    have hr : r = none := by cases h; rfl
    subst hr
    exact ⟨fun a ha => (nomatch ha), by simp [hs]⟩
  · rw [if_neg hs] at h
    split at h
    · cases h
    · rename_i m hp
      split at h
      · cases h
      · rename_i hm
        cases h
        refine ⟨fun a ha => ?_, by simp [hs]⟩
        cases ha
        omega

theorem parse_range_ok_shape (s : String) (mn mx : Option Int)
    (h : parse_range s = .ok (mn, mx)) :
    (∀ a, mn = some a → 0 ≤ a) ∧ (∀ b, mx = some b → 0 ≤ b) ∧
    (∀ a b, mn = some a → mx = some b → a ≤ b) ∧
    (mn = none ↔ strTrim (strPartition ((s.drop 1).dropRight 1) ",").1 = "") ∧
    (mx = none ↔ strTrim (strPartition ((s.drop 1).dropRight 1) ",").2 = "") := by
  unfold parse_range at h
  split at h
  · cases h
  · split at h
    · cases h
    · dsimp only [] at h
      split at h
      · cases h
      · rename_i min hmin
        split at h
        · cases h
        · rename_i max hmax
          have smin := parseRangeBound_shape _ _ _ hmin
          have smax := parseRangeBound_shape _ _ _ hmax
          split at h
          · rename_i a b
            split at h
            · cases h
            · rename_i hlt
              simp only [Except.ok.injEq, Prod.mk.injEq] at h
              obtain ⟨rfl, rfl⟩ := h
              refine ⟨smin.1, smax.1, ?_, smin.2, smax.2⟩
              intro a' b' ha hb
              obtain rfl := Option.some.inj ha
              obtain rfl := Option.some.inj hb
              omega
          · rename_i hnotboth
            simp only [Except.ok.injEq, Prod.mk.injEq] at h
            obtain ⟨rfl, rfl⟩ := h
            refine ⟨smin.1, smax.1, ?_, smin.2, smax.2⟩
            intro a b ha hb
            exact (hnotboth a b ha hb).elim

theorem exceptPure {α : Type _} (a : α) : (pure a : Except RuleError α) = .ok a := rfl

theorem brfc_more (feature : Feature) (s : String) (d : Option String) (n : Int)
    (h1 : strEnds s " or more" = true) (h2 : parse_int (s.dropRight 8) = .ok n) :
    buildRangeFromCount feature (.str s) d = .ok (.Range feature (some n) none d) := by
  unfold buildRangeFromCount
  simp [h1, h2, exceptBind_ok, exceptPure]

theorem brfc_fewer (feature : Feature) (s : String) (d : Option String) (n : Int)
    (h0 : strEnds s " or more" = false) (h1 : strEnds s " or fewer" = true)
    (h2 : parse_int (s.dropRight 9) = .ok n) :
    buildRangeFromCount feature (.str s) d = .ok (.Range feature none (some n) d) := by
  unfold buildRangeFromCount
  simp [h0, h1, h2, exceptBind_ok, exceptPure]

theorem brfc_paren_ok (feature : Feature) (s : String) (d : Option String)
    (mn mx : Option Int)
    (h0 : strEnds s " or more" = false) (h1 : strEnds s " or fewer" = false)
    (h2 : strStarts s "(" = true) (h3 : parse_range s = .ok (mn, mx)) :
    buildRangeFromCount feature (.str s) d = .ok (.Range feature mn mx d) := by
  unfold buildRangeFromCount
  simp [h0, h1, h2, h3, exceptBind_ok, exceptPure]

theorem brfc_paren_err (feature : Feature) (s : String) (d : Option String) (e : RuleError)
    (h0 : strEnds s " or more" = false) (h1 : strEnds s " or fewer" = false)
    (h2 : strStarts s "(" = true) (h3 : parse_range s = .error e) :
    buildRangeFromCount feature (.str s) d = .error e := by
  unfold buildRangeFromCount
  simp [h0, h1, h2, h3, exceptBind_ok, exceptPure, exceptBind_error]

theorem brfc_other (feature : Feature) (s : String) (d : Option String)
    (h0 : strEnds s " or more" = false) (h1 : strEnds s " or fewer" = false)
    (h2 : strStarts s "(" = false) :
    buildRangeFromCount feature (.str s) d =
      .error (.invalidRule ("unexpected range: " ++ s)) := by
  unfold buildRangeFromCount
  simp only [h0, h1, h2, Bool.false_eq_true, if_false]
  rfl

/-- C5 counterexample: the `count(...)` right-hand side `-3` (a negative
bound) does not raise `InvalidRule`; it yields `Range` with
`min = max = -3`. -/
theorem claim_C5_counterexample :
    build_statements FUNCTION_SCOPE (.map (.cons "count(mnemonic(mov))" (.int (-3)) .nil)) =
      .ok (.Range (.mnemonic "mov") (some (-3)) (some (-3)) none) := rfl

/-- C5 amended: for a `count(...)` statement, an integer right-hand side
`n` (negative included) yields `Range [n, n]`; `N or more` / `N or fewer`
yield half-bounded ranges for any `parse_int`-readable `N` (negative
included); a parenthesized right-hand side follows `parse_range`, which is
where an empty side means unbounded and where a negative bound or
`max < min` raises `InvalidRule`; any other string right-hand side raises
`InvalidRule`. -/
theorem claim_C5_amended :
    (∀ n : Int,
      build_statements FUNCTION_SCOPE (.map (.cons "count(mnemonic(mov))" (.int n) .nil)) =
        .ok (.Range (.mnemonic "mov") (some n) (some n) none)) ∧
    (∀ (s : String) (n : Int), strEnds s " or more" = true →
      parse_int (s.dropRight 8) = .ok n →
      build_statements FUNCTION_SCOPE (.map (.cons "count(mnemonic(mov))" (.str s) .nil)) =
        .ok (.Range (.mnemonic "mov") (some n) none none)) ∧
    (∀ (s : String) (n : Int), strEnds s " or more" = false →
      strEnds s " or fewer" = true → parse_int (s.dropRight 9) = .ok n →
      build_statements FUNCTION_SCOPE (.map (.cons "count(mnemonic(mov))" (.str s) .nil)) =
        .ok (.Range (.mnemonic "mov") none (some n) none)) ∧
    (∀ (s : String) (mn mx : Option Int), strEnds s " or more" = false →
      strEnds s " or fewer" = false → strStarts s "(" = true →
      parse_range s = .ok (mn, mx) →
      build_statements FUNCTION_SCOPE (.map (.cons "count(mnemonic(mov))" (.str s) .nil)) =
        .ok (.Range (.mnemonic "mov") mn mx none)) ∧
    (∀ (s : String) (e : RuleError), strEnds s " or more" = false →
      strEnds s " or fewer" = false → strStarts s "(" = true →
      parse_range s = .error e →
      build_statements FUNCTION_SCOPE (.map (.cons "count(mnemonic(mov))" (.str s) .nil)) =
        .error e) ∧
    (∀ s : String, strEnds s " or more" = false → strEnds s " or fewer" = false →
      strStarts s "(" = false →
      build_statements FUNCTION_SCOPE (.map (.cons "count(mnemonic(mov))" (.str s) .nil)) =
        .error (.invalidRule ("unexpected range: " ++ s))) ∧
    (∀ (s : String) (mn mx : Option Int), parse_range s = .ok (mn, mx) →
      (∀ a, mn = some a → 0 ≤ a) ∧ (∀ b, mx = some b → 0 ≤ b) ∧
      (∀ a b, mn = some a → mx = some b → a ≤ b) ∧
      (mn = none ↔ strTrim (strPartition ((s.drop 1).dropRight 1) ",").1 = "") ∧
      (mx = none ↔ strTrim (strPartition ((s.drop 1).dropRight 1) ",").2 = "")) := by
  refine ⟨fun n => rfl, ?_, ?_, ?_, ?_, ?_, parse_range_ok_shape⟩
  · intro s n h1 h2
    have hb : build_statements FUNCTION_SCOPE
        (.map (.cons "count(mnemonic(mov))" (.str s) .nil)) =
        buildRangeFromCount (.mnemonic "mov") (.str s) none := rfl
    rw [hb]
    exact brfc_more _ s none n h1 h2
  · intro s n h0 h1 h2
    have hb : build_statements FUNCTION_SCOPE
        (.map (.cons "count(mnemonic(mov))" (.str s) .nil)) =
        buildRangeFromCount (.mnemonic "mov") (.str s) none := rfl
    rw [hb]
    exact brfc_fewer _ s none n h0 h1 h2
  · intro s mn mx h0 h1 h2 h3
    have hb : build_statements FUNCTION_SCOPE
        (.map (.cons "count(mnemonic(mov))" (.str s) .nil)) =
        buildRangeFromCount (.mnemonic "mov") (.str s) none := rfl
    rw [hb]
    exact brfc_paren_ok _ s none mn mx h0 h1 h2 h3
  · intro s e h0 h1 h2 h3
    have hb : build_statements FUNCTION_SCOPE
        (.map (.cons "count(mnemonic(mov))" (.str s) .nil)) =
        buildRangeFromCount (.mnemonic "mov") (.str s) none := rfl
    rw [hb]
    exact brfc_paren_err _ s none e h0 h1 h2 h3
  · intro s h0 h1 h2
    have hb : build_statements FUNCTION_SCOPE
        (.map (.cons "count(mnemonic(mov))" (.str s) .nil)) =
        buildRangeFromCount (.mnemonic "mov") (.str s) none := rfl
    rw [hb]
    exact brfc_other _ s none h0 h1 h2

/-- Witness for C5 amended at concrete right-hand sides. -/
theorem claim_C5_witness :
    build_statements FUNCTION_SCOPE
        (.map (.cons "count(mnemonic(mov))" (.str "3 or more") .nil)) =
      .ok (.Range (.mnemonic "mov") (some 3) none none) ∧
    build_statements FUNCTION_SCOPE
        (.map (.cons "count(mnemonic(mov))" (.str "5 or fewer") .nil)) =
      .ok (.Range (.mnemonic "mov") none (some 5) none) ∧
    build_statements FUNCTION_SCOPE
        (.map (.cons "count(mnemonic(mov))" (.str "(, 5)") .nil)) =
      .ok (.Range (.mnemonic "mov") none (some 5) none) ∧
    build_statements FUNCTION_SCOPE
        (.map (.cons "count(mnemonic(mov))" (.str "(-1, 5)") .nil)) =
      .error (.invalidRule "range min less than zero") ∧
    build_statements FUNCTION_SCOPE
        (.map (.cons "count(mnemonic(mov))" (.str "xyz") .nil)) =
      .error (.invalidRule "unexpected range: xyz") := by
  refine ⟨claim_C5_amended.2.1 "3 or more" 3 rfl rfl,
    claim_C5_amended.2.2.1 "5 or fewer" 5 rfl rfl rfl,
    claim_C5_amended.2.2.2.1 "(, 5)" none (some 5) rfl rfl rfl rfl,
    claim_C5_amended.2.2.2.2.1 "(-1, 5)" (.invalidRule "range min less than zero")
      rfl rfl rfl rfl,
    claim_C5_amended.2.2.2.2.2.1 "xyz" rfl rfl rfl⟩

theorem rpartBefore_length_lt (s : String) (h : s ≠ "") :
    (rpartBefore s).toList.length < s.toList.length := by
  unfold rpartBefore
  have hlen : s.toList.length ≠ 0 := by
    intro hl
    apply h
    cases hs : s.toList with
    | nil =>
      cases s with
      | mk data => cases hs; rfl
    | cons c cs => rw [hs] at hl; simp at hl
  have h1 : (s.toList.reverse.dropWhile (fun c => c ≠ '/')).length ≤ s.toList.length := by
    calc (s.toList.reverse.dropWhile (fun c => c ≠ '/')).length
        ≤ s.toList.reverse.length := (List.dropWhile_sublist _).length_le
      _ = s.toList.length := List.length_reverse _
  show (((s.toList.reverse.dropWhile (fun c => c ≠ '/')).drop 1).reverse).length <
    s.toList.length
  rw [List.length_reverse, List.length_drop]
  omega

theorem namespacePrefixesAux_length_le :
    ∀ (fuel : Nat) (s t : String), t ∈ namespacePrefixesAux fuel s →
      t.toList.length ≤ s.toList.length
  | 0, s, t, h => by cases h
  | fuel + 1, s, t, h => by
    unfold namespacePrefixesAux at h
    by_cases hs : s = ""
    · rw [if_pos hs] at h
      cases h
    · rw [if_neg hs] at h
      rcases List.mem_cons.mp h with rfl | h
      · exact le_refl _
      · calc t.toList.length
            ≤ (rpartBefore s).toList.length := namespacePrefixesAux_length_le fuel _ t h
          _ ≤ s.toList.length := le_of_lt (rpartBefore_length_lt s hs)

theorem namespacePrefixesAux_nodup :
    ∀ (fuel : Nat) (s : String), (namespacePrefixesAux fuel s).Nodup
  | 0, s => List.nodup_nil
  | fuel + 1, s => by
    unfold namespacePrefixesAux
    by_cases hs : s = ""
    · rw [if_pos hs]
      exact List.nodup_nil
    · rw [if_neg hs]
      refine List.nodup_cons.mpr ⟨?_, namespacePrefixesAux_nodup fuel (rpartBefore s)⟩
      intro hmem
      have h1 := namespacePrefixesAux_length_le fuel (rpartBefore s) s hmem
      have h2 := rpartBefore_length_lt s hs
      omega

theorem namespacePrefixes_nodup (s : String) : (namespacePrefixes s).Nodup :=
  namespacePrefixesAux_nodup _ s

theorem idxGet_addToNamespaceIndex (idx : List (String × List Rule)) (key : String)
    (r : Rule) (v : String) :
    idxGet (addToNamespaceIndex idx key r) v =
      if v = key then some (((idxGet idx v).getD []) ++ [r]) else idxGet idx v := by
  induction idx with
  | nil =>
    simp only [addToNamespaceIndex, idxGet]
    by_cases h : v = key
    · subst h
      rw [if_pos rfl, if_pos rfl]
      rfl
    · rw [if_neg (fun hh : key = v => h hh.symm), if_neg h]
  | cons p rest ih =>
    obtain ⟨pk, pl⟩ := p
    simp only [addToNamespaceIndex, idxGet]
    by_cases hk : pk = key
    · subst hk
      rw [if_pos rfl]
      simp only [idxGet]
      by_cases hv : v = pk
      · subst hv
        rw [if_pos rfl, if_pos rfl, if_pos rfl]
        rfl
      · rw [if_neg (fun hh : pk = v => hv hh.symm), if_neg hv,
          if_neg (fun hh : pk = v => hv hh.symm)]
    · rw [if_neg hk]
      simp only [idxGet]
      by_cases hv : pk = v
      · subst hv
        have : ¬ (pk = key) := hk
        rw [if_pos rfl, if_neg (fun hh : pk = key => hk hh), if_pos rfl]
      · rw [if_neg hv, if_neg hv, ih]

theorem idxGet_prefixFold (P : List String) (r : Rule) (v : String) :
    ∀ idx : List (String × List Rule), P.Nodup →
      idxGet (List.foldl (fun idx p => addToNamespaceIndex idx p r) idx P) v =
        if v ∈ P then some (((idxGet idx v).getD []) ++ [r]) else idxGet idx v := by
  induction P with
  | nil =>
    intro idx _
    simp
  | cons p P' ih =>
    intro idx hnd
    obtain ⟨hp, hnd'⟩ := List.nodup_cons.mp hnd
    rw [List.foldl_cons, ih (addToNamespaceIndex idx p r) hnd']
    by_cases hv : v ∈ P'
    · rw [if_pos hv, if_pos (List.mem_cons_of_mem _ hv)]
      have hvp : ¬ v = p := fun hh => hp (hh ▸ hv)
      rw [idxGet_addToNamespaceIndex, if_neg hvp]
    · rw [if_neg hv, idxGet_addToNamespaceIndex]
      by_cases hvp : v = p
      · rw [if_pos hvp, if_pos (by rw [hvp]; exact List.mem_cons_self p P')]
      · rw [if_neg hvp, if_neg (by
          intro hm
          rcases List.mem_cons.mp hm with h | h
          · exact hvp h
          · exact hv h)]

theorem hasNamespacePrefB_iff (r : Rule) (v : String) :
    hasNamespacePrefB r v = true ↔
      ∃ ns, metaNamespace r = some ns ∧ v ∈ namespacePrefixes ns := by
  unfold hasNamespacePrefB
  cases h : metaNamespace r with
  | none => simp
  | some ns => simp [List.elem_iff]

theorem idxGet_indexFold (rules : List Rule) (v : String) :
    ∀ idx : List (String × List Rule),
      idxGet (List.foldl
        (fun idx r =>
          match metaNamespace r with
          | none => idx
          | some ns =>
            List.foldl (fun idx p => addToNamespaceIndex idx p r) idx (namespacePrefixes ns))
        idx rules) v =
      if (rules.filter (fun r => hasNamespacePrefB r v)).isEmpty then idxGet idx v
      else some (((idxGet idx v).getD []) ++ rules.filter (fun r => hasNamespacePrefB r v)) := by
  induction rules with
  | nil =>
    intro idx
    simp
  | cons r rest ih =>
    intro idx
    rw [List.foldl_cons]
    cases hns : metaNamespace r with
    | none =>
      have hpref : hasNamespacePrefB r v = false := by
        unfold hasNamespacePrefB
        rw [hns]
      rw [ih idx]
      simp only [List.filter_cons, hpref]
      rfl
    | some ns =>
      have hbase := idxGet_prefixFold (namespacePrefixes ns) r v idx
        (namespacePrefixes_nodup ns)
      rw [ih (List.foldl (fun idx p => addToNamespaceIndex idx p r) idx (namespacePrefixes ns))]
      by_cases hv : v ∈ namespacePrefixes ns
      · have hpref : hasNamespacePrefB r v = true := by
          rw [hasNamespacePrefB_iff]
          exact ⟨ns, hns, hv⟩
        rw [if_pos hv] at hbase
        simp only [List.filter_cons, hpref, if_pos, hbase]
        by_cases hrest : (rest.filter (fun r => hasNamespacePrefB r v)).isEmpty
        · rw [if_pos hrest, if_neg (by simp)]
          have : rest.filter (fun r => hasNamespacePrefB r v) = [] := by
            simpa [List.isEmpty_iff] using hrest
          rw [this]
        · rw [if_neg hrest, if_neg (by simp)]
          simp
      · have hpref : hasNamespacePrefB r v = false := by
          cases hb : hasNamespacePrefB r v
          · rfl
          · obtain ⟨ns', hns', hv'⟩ := (hasNamespacePrefB_iff r v).mp hb
            rw [hns] at hns'
            cases hns'
            exact absurd hv' hv
        rw [if_neg hv] at hbase
        rw [hbase]
        simp only [List.filter_cons, hpref]
        rfl

theorem idxGet_index_rules (rules : List Rule) (v : String) :
    idxGet (index_rules_by_namespace rules) v =
      if (rules.filter (fun r => hasNamespacePrefB r v)).isEmpty then none
      else some (rules.filter (fun r => hasNamespacePrefB r v)) := by
  unfold index_rules_by_namespace
  rw [idxGet_indexFold rules v []]
  simp only [idxGet]
  rfl

/-- C4: `get_dependencies` resolves each `MatchedRule` value that is a key
of the namespace index built by `index_rules_by_namespace` to the names of
all rules whose namespace has that value as a prefix path component (the
namespace index takes precedence over any rule of the same name), and
resolves every other `MatchedRule` value to itself as a direct rule-name
dependency. -/
theorem claim_C4_dependency_resolution (rules : List Rule) (r : Rule) (d : String) :
    d ∈ get_dependencies (index_rules_by_namespace rules) r ↔
      ∃ v, v ∈ r.statement.matchedRuleValues ∧
        (((∃ r' ∈ rules, ∃ ns, metaNamespace r' = some ns ∧ v ∈ namespacePrefixes ns) ∧
            ∃ r', r' ∈ rules ∧
              (∃ ns, metaNamespace r' = some ns ∧ v ∈ namespacePrefixes ns) ∧ r'.name = d) ∨
          ((¬ ∃ r' ∈ rules, ∃ ns, metaNamespace r' = some ns ∧ v ∈ namespacePrefixes ns) ∧
            d = v)) := by
  unfold get_dependencies
  rw [List.mem_flatMap]
  apply exists_congr
  intro v
  apply and_congr_right
  intro _
  rw [idxGet_index_rules]
  cases hemp : (rules.filter (fun r => hasNamespacePrefB r v)).isEmpty
  · rw [if_neg Bool.false_ne_true]
    constructor
    · intro hd
      obtain ⟨r', hr', hname⟩ := List.mem_map.mp hd
      obtain ⟨hr'rules, hpref⟩ := List.mem_filter.mp hr'
      have hex : ∃ ns, metaNamespace r' = some ns ∧ v ∈ namespacePrefixes ns :=
        (hasNamespacePrefB_iff r' v).mp hpref
      exact Or.inl ⟨⟨r', hr'rules, hex⟩, ⟨r', hr'rules, hex, hname⟩⟩
    · rintro (⟨-, r', hr'rules, hex, hname⟩ | ⟨hno, -⟩)
      · exact List.mem_map.mpr
          ⟨r', List.mem_filter.mpr ⟨hr'rules, (hasNamespacePrefB_iff r' v).mpr hex⟩, hname⟩
      · exfalso
        apply hno
        have hne : rules.filter (fun r => hasNamespacePrefB r v) ≠ [] := by
          intro hh
          rw [hh] at hemp
          cases hemp
        obtain ⟨r', hr'⟩ := List.exists_mem_of_ne_nil _ hne
        obtain ⟨hr'rules, hpref⟩ := List.mem_filter.mp hr'
        exact ⟨r', hr'rules, (hasNamespacePrefB_iff r' v).mp hpref⟩
  · have hnil : rules.filter (fun r => hasNamespacePrefB r v) = [] := by
      simpa [List.isEmpty_iff] using hemp
    have hno : ¬ ∃ r' ∈ rules, ∃ ns, metaNamespace r' = some ns ∧ v ∈ namespacePrefixes ns := by
      rintro ⟨r', hr', hex⟩
      have hpref := (hasNamespacePrefB_iff r' v).mpr hex
      have : r' ∈ rules.filter (fun r => hasNamespacePrefB r v) :=
        List.mem_filter.mpr ⟨hr', hpref⟩
      rw [hnil] at this
      cases this
    constructor
    · intro hd
      exact Or.inr ⟨hno, by simpa using hd⟩
    · rintro (⟨hyes, -⟩ | ⟨-, rfl⟩)
      · exact absurd hyes hno
      · simp


mutual
/-- Every rule emitted by `extractStatement` is a subscope rule of the
parent (correct name shape, the `Subscope` it was cut from occurs in the
input) and the rewritten tree holds a `MatchedRule` leaf naming it; if the
root is not itself a `Subscope`, the rewritten tree has no `Subscope` node
left. -/
theorem extractStatement_spec (pname : String) (supply : Nat → String) :
    ∀ (k : Nat) (st : Statement),
      (∀ nr ∈ (extractStatement pname supply k st).2.1,
        (∃ j sc ch, nr = subscopeRule (pname ++ "/" ++ supply j) sc ch pname ∧
          StatementOccurs (.Subscope sc ch) st) ∧
        (extractStatement pname supply k st).1.hasMatchedLeaf nr.name = true) ∧
      ((∀ sc c, st ≠ .Subscope sc c) →
        (extractStatement pname supply k st).1.hasSubscopeNode = false)
  | k, .And cs d => by
    have hc := extractChildren_spec pname supply k cs
    refine ⟨?_, ?_⟩
    · intro nr hnr
      obtain ⟨⟨j, sc, ch, hshape, hocc⟩, hleaf⟩ := hc.1 nr hnr
      exact ⟨⟨j, sc, ch, hshape, .inAnd _ _ _ hocc⟩, hleaf⟩
    · intro _
      exact hc.2
  | k, .Or cs d => by
    have hc := extractChildren_spec pname supply k cs
    refine ⟨?_, ?_⟩
    · intro nr hnr
      obtain ⟨⟨j, sc, ch, hshape, hocc⟩, hleaf⟩ := hc.1 nr hnr
      exact ⟨⟨j, sc, ch, hshape, .inOr _ _ _ hocc⟩, hleaf⟩
    · intro _
      exact hc.2
  | k, .Some n cs d => by
    have hc := extractChildren_spec pname supply k cs
    refine ⟨?_, ?_⟩
    · intro nr hnr
      obtain ⟨⟨j, sc, ch, hshape, hocc⟩, hleaf⟩ := hc.1 nr hnr
      exact ⟨⟨j, sc, ch, hshape, .inSome _ _ _ _ hocc⟩, hleaf⟩
    · intro _
      exact hc.2
  | k, .Not c d => by
    cases c with
    | Subscope sc ch =>
      refine ⟨?_, ?_⟩
      · intro nr hnr
        have hnr2 : nr ∈ [subscopeRule (pname ++ "/" ++ supply k) sc ch pname] := hnr
        obtain rfl := List.mem_singleton.mp hnr2
        refine ⟨⟨k, sc, ch, rfl, .inNot _ _ _ (.refl _)⟩, ?_⟩
        show (Statement.Feature (.matchedRule (pname ++ "/" ++ supply k))).hasMatchedLeaf
          (subscopeRule (pname ++ "/" ++ supply k) sc ch pname).name = true
        simp [subscopeRule, Statement.hasMatchedLeaf]
      · intro _
        rfl
    | And cs' d' =>
      have hs := extractStatement_spec pname supply k (.And cs' d')
      refine ⟨?_, ?_⟩
      · intro nr hnr
        obtain ⟨⟨j, sc, ch, hshape, hocc⟩, hleaf⟩ := hs.1 nr hnr
        exact ⟨⟨j, sc, ch, hshape, .inNot _ _ _ hocc⟩, hleaf⟩
      · intro _
        exact hs.2 (fun sc c h => nomatch h)
    | Or cs' d' =>
      have hs := extractStatement_spec pname supply k (.Or cs' d')
      refine ⟨?_, ?_⟩
      · intro nr hnr
        obtain ⟨⟨j, sc, ch, hshape, hocc⟩, hleaf⟩ := hs.1 nr hnr
        exact ⟨⟨j, sc, ch, hshape, .inNot _ _ _ hocc⟩, hleaf⟩
      · intro _
        exact hs.2 (fun sc c h => nomatch h)
    | Not c' d' =>
      have hs := extractStatement_spec pname supply k (.Not c' d')
      refine ⟨?_, ?_⟩
      · intro nr hnr
        obtain ⟨⟨j, sc, ch, hshape, hocc⟩, hleaf⟩ := hs.1 nr hnr
        exact ⟨⟨j, sc, ch, hshape, .inNot _ _ _ hocc⟩, hleaf⟩
      · intro _
        exact hs.2 (fun sc c h => nomatch h)
    | Some n' cs' d' =>
      have hs := extractStatement_spec pname supply k (.Some n' cs' d')
      refine ⟨?_, ?_⟩
      · intro nr hnr
        obtain ⟨⟨j, sc, ch, hshape, hocc⟩, hleaf⟩ := hs.1 nr hnr
        exact ⟨⟨j, sc, ch, hshape, .inNot _ _ _ hocc⟩, hleaf⟩
      · intro _
        exact hs.2 (fun sc c h => nomatch h)
    | Range f mn mx d' =>
      have hs := extractStatement_spec pname supply k (.Range f mn mx d')
      refine ⟨?_, ?_⟩
      · intro nr hnr
        obtain ⟨⟨j, sc, ch, hshape, hocc⟩, hleaf⟩ := hs.1 nr hnr
        exact ⟨⟨j, sc, ch, hshape, .inNot _ _ _ hocc⟩, hleaf⟩
      · intro _
        exact hs.2 (fun sc c h => nomatch h)
    | Feature f =>
      have hs := extractStatement_spec pname supply k (.Feature f)
      refine ⟨?_, ?_⟩
      · intro nr hnr
        obtain ⟨⟨j, sc, ch, hshape, hocc⟩, hleaf⟩ := hs.1 nr hnr
        exact ⟨⟨j, sc, ch, hshape, .inNot _ _ _ hocc⟩, hleaf⟩
      · intro _
        exact hs.2 (fun sc c h => nomatch h)
  | k, .Subscope sc c => by
    cases c with
    | Subscope sc2 ch =>
      refine ⟨?_, ?_⟩
      · intro nr hnr
        have hnr2 : nr ∈ [subscopeRule (pname ++ "/" ++ supply k) sc2 ch pname] := hnr
        obtain rfl := List.mem_singleton.mp hnr2
        refine ⟨⟨k, sc2, ch, rfl, .inSubscope _ _ _ (.refl _)⟩, ?_⟩
        show (Statement.Feature (.matchedRule (pname ++ "/" ++ supply k))).hasMatchedLeaf
          (subscopeRule (pname ++ "/" ++ supply k) sc2 ch pname).name = true
        simp [subscopeRule, Statement.hasMatchedLeaf]
      · intro h
        exact absurd rfl (h sc (.Subscope sc2 ch))
    | And cs' d' =>
      have hs := extractStatement_spec pname supply k (.And cs' d')
      refine ⟨?_, ?_⟩
      · intro nr hnr
        obtain ⟨⟨j, sc2, ch, hshape, hocc⟩, hleaf⟩ := hs.1 nr hnr
        exact ⟨⟨j, sc2, ch, hshape, .inSubscope _ _ _ hocc⟩, hleaf⟩
      · intro h
        exact absurd rfl (h sc (.And cs' d'))
    | Or cs' d' =>
      have hs := extractStatement_spec pname supply k (.Or cs' d')
      refine ⟨?_, ?_⟩
      · intro nr hnr
        obtain ⟨⟨j, sc2, ch, hshape, hocc⟩, hleaf⟩ := hs.1 nr hnr
        exact ⟨⟨j, sc2, ch, hshape, .inSubscope _ _ _ hocc⟩, hleaf⟩
      · intro h
        exact absurd rfl (h sc (.Or cs' d'))
    | Not c' d' =>
      have hs := extractStatement_spec pname supply k (.Not c' d')
      refine ⟨?_, ?_⟩
      · intro nr hnr
        obtain ⟨⟨j, sc2, ch, hshape, hocc⟩, hleaf⟩ := hs.1 nr hnr
        exact ⟨⟨j, sc2, ch, hshape, .inSubscope _ _ _ hocc⟩, hleaf⟩
      · intro h
        exact absurd rfl (h sc (.Not c' d'))
    | Some n' cs' d' =>
      have hs := extractStatement_spec pname supply k (.Some n' cs' d')
      refine ⟨?_, ?_⟩
      · intro nr hnr
        obtain ⟨⟨j, sc2, ch, hshape, hocc⟩, hleaf⟩ := hs.1 nr hnr
        exact ⟨⟨j, sc2, ch, hshape, .inSubscope _ _ _ hocc⟩, hleaf⟩
      · intro h
        exact absurd rfl (h sc (.Some n' cs' d'))
    | Range f mn mx d' =>
      have hs := extractStatement_spec pname supply k (.Range f mn mx d')
      refine ⟨?_, ?_⟩
      · intro nr hnr
        obtain ⟨⟨j, sc2, ch, hshape, hocc⟩, hleaf⟩ := hs.1 nr hnr
        exact ⟨⟨j, sc2, ch, hshape, .inSubscope _ _ _ hocc⟩, hleaf⟩
      · intro h
        exact absurd rfl (h sc (.Range f mn mx d'))
    | Feature f =>
      have hs := extractStatement_spec pname supply k (.Feature f)
      refine ⟨?_, ?_⟩
      · intro nr hnr
        obtain ⟨⟨j, sc2, ch, hshape, hocc⟩, hleaf⟩ := hs.1 nr hnr
        exact ⟨⟨j, sc2, ch, hshape, .inSubscope _ _ _ hocc⟩, hleaf⟩
      · intro h
        exact absurd rfl (h sc (.Feature f))
  | k, .Range f mn mx d => by
    refine ⟨?_, ?_⟩
    · intro nr hnr
      cases hnr
    · intro _
      rfl
  | k, .Feature f => by
    refine ⟨?_, ?_⟩
    · intro nr hnr
      cases hnr
    · intro _
      rfl
termination_by k st => sizeOf st

/-- Child-list version of `extractStatement_spec`. -/
theorem extractChildren_spec (pname : String) (supply : Nat → String) :
    ∀ (k : Nat) (cs : StatementList),
      (∀ nr ∈ (extractChildren pname supply k cs).2.1,
        (∃ j sc ch, nr = subscopeRule (pname ++ "/" ++ supply j) sc ch pname ∧
          StatementListOccurs (.Subscope sc ch) cs) ∧
        (extractChildren pname supply k cs).1.hasMatchedLeaf nr.name = true) ∧
      (extractChildren pname supply k cs).1.hasSubscopeNode = false
  | k, .nil => by
    refine ⟨?_, rfl⟩
    intro nr hnr
    cases hnr
  | k, .cons c rest => by
    cases c with
    | Subscope sc ch =>
      have hr := extractChildren_spec pname supply (k + 1) rest
      refine ⟨?_, ?_⟩
      · intro nr hnr
        have hnr2 : nr ∈ subscopeRule (pname ++ "/" ++ supply k) sc ch pname ::
            (extractChildren pname supply (k + 1) rest).2.1 := hnr
        rcases List.mem_cons.mp hnr2 with rfl | hnr'
        · refine ⟨⟨k, sc, ch, rfl, .head _ _ _ (.refl _)⟩, ?_⟩
          show ((Statement.Feature (.matchedRule (pname ++ "/" ++ supply k))).hasMatchedLeaf
              (subscopeRule (pname ++ "/" ++ supply k) sc ch pname).name ||
            (extractChildren pname supply (k + 1) rest).1.hasMatchedLeaf
              (subscopeRule (pname ++ "/" ++ supply k) sc ch pname).name) = true
          simp [subscopeRule, Statement.hasMatchedLeaf]
        · obtain ⟨⟨j, sc2, ch2, hshape, hocc⟩, hleaf⟩ := hr.1 nr hnr'
          refine ⟨⟨j, sc2, ch2, hshape, .tail _ _ _ hocc⟩, ?_⟩
          show ((Statement.Feature (.matchedRule (pname ++ "/" ++ supply k))).hasMatchedLeaf
              nr.name ||
            (extractChildren pname supply (k + 1) rest).1.hasMatchedLeaf nr.name) = true
          rw [hleaf, Bool.or_true]
      · show ((Statement.Feature (.matchedRule (pname ++ "/" ++ supply k))).hasSubscopeNode ||
          (extractChildren pname supply (k + 1) rest).1.hasSubscopeNode) = false
        rw [hr.2]
        rfl
    | And cs' d' =>
      have hs := extractStatement_spec pname supply k (.And cs' d')
      have hr := extractChildren_spec pname supply
        (extractStatement pname supply k (.And cs' d')).2.2 rest
      refine ⟨?_, ?_⟩
      · intro nr hnr
        have hnr2 : nr ∈ (extractStatement pname supply k (.And cs' d')).2.1 ++
            (extractChildren pname supply
              (extractStatement pname supply k (.And cs' d')).2.2 rest).2.1 := hnr
        rcases List.mem_append.mp hnr2 with hnr' | hnr'
        · obtain ⟨⟨j, sc2, ch2, hshape, hocc⟩, hleaf⟩ := hs.1 nr hnr'
          refine ⟨⟨j, sc2, ch2, hshape, .head _ _ _ hocc⟩, ?_⟩
          show ((extractStatement pname supply k (.And cs' d')).1.hasMatchedLeaf nr.name ||
            (extractChildren pname supply
              (extractStatement pname supply k (.And cs' d')).2.2 rest).1.hasMatchedLeaf
                nr.name) = true
          rw [hleaf, Bool.true_or]
        · obtain ⟨⟨j, sc2, ch2, hshape, hocc⟩, hleaf⟩ := hr.1 nr hnr'
          refine ⟨⟨j, sc2, ch2, hshape, .tail _ _ _ hocc⟩, ?_⟩
          show ((extractStatement pname supply k (.And cs' d')).1.hasMatchedLeaf nr.name ||
            (extractChildren pname supply
              (extractStatement pname supply k (.And cs' d')).2.2 rest).1.hasMatchedLeaf
                nr.name) = true
          rw [hleaf, Bool.or_true]
      · show ((extractStatement pname supply k (.And cs' d')).1.hasSubscopeNode ||
          (extractChildren pname supply
            (extractStatement pname supply k (.And cs' d')).2.2 rest).1.hasSubscopeNode) = false
        rw [hs.2 (fun sc2 c2 h => nomatch h), hr.2]
        rfl
    | Or cs' d' =>
      have hs := extractStatement_spec pname supply k (.Or cs' d')
      have hr := extractChildren_spec pname supply
        (extractStatement pname supply k (.Or cs' d')).2.2 rest
      refine ⟨?_, ?_⟩
      · intro nr hnr
        have hnr2 : nr ∈ (extractStatement pname supply k (.Or cs' d')).2.1 ++
            (extractChildren pname supply
              (extractStatement pname supply k (.Or cs' d')).2.2 rest).2.1 := hnr
        rcases List.mem_append.mp hnr2 with hnr' | hnr'
        · obtain ⟨⟨j, sc2, ch2, hshape, hocc⟩, hleaf⟩ := hs.1 nr hnr'
          refine ⟨⟨j, sc2, ch2, hshape, .head _ _ _ hocc⟩, ?_⟩
          show ((extractStatement pname supply k (.Or cs' d')).1.hasMatchedLeaf nr.name ||
            (extractChildren pname supply
              (extractStatement pname supply k (.Or cs' d')).2.2 rest).1.hasMatchedLeaf
                nr.name) = true
          rw [hleaf, Bool.true_or]
        · obtain ⟨⟨j, sc2, ch2, hshape, hocc⟩, hleaf⟩ := hr.1 nr hnr'
          refine ⟨⟨j, sc2, ch2, hshape, .tail _ _ _ hocc⟩, ?_⟩
          show ((extractStatement pname supply k (.Or cs' d')).1.hasMatchedLeaf nr.name ||
            (extractChildren pname supply
              (extractStatement pname supply k (.Or cs' d')).2.2 rest).1.hasMatchedLeaf
                nr.name) = true
          rw [hleaf, Bool.or_true]
      · show ((extractStatement pname supply k (.Or cs' d')).1.hasSubscopeNode ||
          (extractChildren pname supply
            (extractStatement pname supply k (.Or cs' d')).2.2 rest).1.hasSubscopeNode) = false
        rw [hs.2 (fun sc2 c2 h => nomatch h), hr.2]
        rfl
    | Not c' d' =>
      have hs := extractStatement_spec pname supply k (.Not c' d')
      have hr := extractChildren_spec pname supply
        (extractStatement pname supply k (.Not c' d')).2.2 rest
      refine ⟨?_, ?_⟩
      · intro nr hnr
        have hnr2 : nr ∈ (extractStatement pname supply k (.Not c' d')).2.1 ++
            (extractChildren pname supply
              (extractStatement pname supply k (.Not c' d')).2.2 rest).2.1 := hnr
        rcases List.mem_append.mp hnr2 with hnr' | hnr'
        · obtain ⟨⟨j, sc2, ch2, hshape, hocc⟩, hleaf⟩ := hs.1 nr hnr'
          refine ⟨⟨j, sc2, ch2, hshape, .head _ _ _ hocc⟩, ?_⟩
          show ((extractStatement pname supply k (.Not c' d')).1.hasMatchedLeaf nr.name ||
            (extractChildren pname supply
              (extractStatement pname supply k (.Not c' d')).2.2 rest).1.hasMatchedLeaf
                nr.name) = true
          rw [hleaf, Bool.true_or]
        · obtain ⟨⟨j, sc2, ch2, hshape, hocc⟩, hleaf⟩ := hr.1 nr hnr'
          refine ⟨⟨j, sc2, ch2, hshape, .tail _ _ _ hocc⟩, ?_⟩
          show ((extractStatement pname supply k (.Not c' d')).1.hasMatchedLeaf nr.name ||
            (extractChildren pname supply
              (extractStatement pname supply k (.Not c' d')).2.2 rest).1.hasMatchedLeaf
                nr.name) = true
          rw [hleaf, Bool.or_true]
      · show ((extractStatement pname supply k (.Not c' d')).1.hasSubscopeNode ||
          (extractChildren pname supply
            (extractStatement pname supply k (.Not c' d')).2.2 rest).1.hasSubscopeNode) = false
        rw [hs.2 (fun sc2 c2 h => nomatch h), hr.2]
        rfl
    | Some n' cs' d' =>
      have hs := extractStatement_spec pname supply k (.Some n' cs' d')
      have hr := extractChildren_spec pname supply
        (extractStatement pname supply k (.Some n' cs' d')).2.2 rest
      refine ⟨?_, ?_⟩
      · intro nr hnr
        have hnr2 : nr ∈ (extractStatement pname supply k (.Some n' cs' d')).2.1 ++
            (extractChildren pname supply
              (extractStatement pname supply k (.Some n' cs' d')).2.2 rest).2.1 := hnr
        rcases List.mem_append.mp hnr2 with hnr' | hnr'
        · obtain ⟨⟨j, sc2, ch2, hshape, hocc⟩, hleaf⟩ := hs.1 nr hnr'
          refine ⟨⟨j, sc2, ch2, hshape, .head _ _ _ hocc⟩, ?_⟩
          show ((extractStatement pname supply k (.Some n' cs' d')).1.hasMatchedLeaf nr.name ||
            (extractChildren pname supply
              (extractStatement pname supply k (.Some n' cs' d')).2.2 rest).1.hasMatchedLeaf
                nr.name) = true
          rw [hleaf, Bool.true_or]
        · obtain ⟨⟨j, sc2, ch2, hshape, hocc⟩, hleaf⟩ := hr.1 nr hnr'
          refine ⟨⟨j, sc2, ch2, hshape, .tail _ _ _ hocc⟩, ?_⟩
          show ((extractStatement pname supply k (.Some n' cs' d')).1.hasMatchedLeaf nr.name ||
            (extractChildren pname supply
              (extractStatement pname supply k (.Some n' cs' d')).2.2 rest).1.hasMatchedLeaf
                nr.name) = true
          rw [hleaf, Bool.or_true]
      · show ((extractStatement pname supply k (.Some n' cs' d')).1.hasSubscopeNode ||
          (extractChildren pname supply
            (extractStatement pname supply k (.Some n' cs' d')).2.2 rest).1.hasSubscopeNode) =
              false
        rw [hs.2 (fun sc2 c2 h => nomatch h), hr.2]
        rfl
    | Range f mn mx d' =>
      have hs := extractStatement_spec pname supply k (.Range f mn mx d')
      have hr := extractChildren_spec pname supply
        (extractStatement pname supply k (.Range f mn mx d')).2.2 rest
      refine ⟨?_, ?_⟩
      · intro nr hnr
        have hnr2 : nr ∈ (extractStatement pname supply k (.Range f mn mx d')).2.1 ++
            (extractChildren pname supply
              (extractStatement pname supply k (.Range f mn mx d')).2.2 rest).2.1 := hnr
        rcases List.mem_append.mp hnr2 with hnr' | hnr'
        · obtain ⟨⟨j, sc2, ch2, hshape, hocc⟩, hleaf⟩ := hs.1 nr hnr'
          refine ⟨⟨j, sc2, ch2, hshape, .head _ _ _ hocc⟩, ?_⟩
          show ((extractStatement pname supply k (.Range f mn mx d')).1.hasMatchedLeaf nr.name ||
            (extractChildren pname supply
              (extractStatement pname supply k (.Range f mn mx d')).2.2 rest).1.hasMatchedLeaf
                nr.name) = true
          rw [hleaf, Bool.true_or]
        · obtain ⟨⟨j, sc2, ch2, hshape, hocc⟩, hleaf⟩ := hr.1 nr hnr'
          refine ⟨⟨j, sc2, ch2, hshape, .tail _ _ _ hocc⟩, ?_⟩
          show ((extractStatement pname supply k (.Range f mn mx d')).1.hasMatchedLeaf nr.name ||
            (extractChildren pname supply
              (extractStatement pname supply k (.Range f mn mx d')).2.2 rest).1.hasMatchedLeaf
                nr.name) = true
          rw [hleaf, Bool.or_true]
      · show ((extractStatement pname supply k (.Range f mn mx d')).1.hasSubscopeNode ||
          (extractChildren pname supply
            (extractStatement pname supply k (.Range f mn mx d')).2.2 rest).1.hasSubscopeNode) =
              false
        rw [hs.2 (fun sc2 c2 h => nomatch h), hr.2]
        rfl
    | Feature f =>
      have hs := extractStatement_spec pname supply k (.Feature f)
      have hr := extractChildren_spec pname supply
        (extractStatement pname supply k (.Feature f)).2.2 rest
      refine ⟨?_, ?_⟩
      · intro nr hnr
        have hnr2 : nr ∈ (extractStatement pname supply k (.Feature f)).2.1 ++
            (extractChildren pname supply
              (extractStatement pname supply k (.Feature f)).2.2 rest).2.1 := hnr
        rcases List.mem_append.mp hnr2 with hnr' | hnr'
        · obtain ⟨⟨j, sc2, ch2, hshape, hocc⟩, hleaf⟩ := hs.1 nr hnr'
          refine ⟨⟨j, sc2, ch2, hshape, .head _ _ _ hocc⟩, ?_⟩
          show ((extractStatement pname supply k (.Feature f)).1.hasMatchedLeaf nr.name ||
            (extractChildren pname supply
              (extractStatement pname supply k (.Feature f)).2.2 rest).1.hasMatchedLeaf
                nr.name) = true
          rw [hleaf, Bool.true_or]
        · obtain ⟨⟨j, sc2, ch2, hshape, hocc⟩, hleaf⟩ := hr.1 nr hnr'
          refine ⟨⟨j, sc2, ch2, hshape, .tail _ _ _ hocc⟩, ?_⟩
          show ((extractStatement pname supply k (.Feature f)).1.hasMatchedLeaf nr.name ||
            (extractChildren pname supply
              (extractStatement pname supply k (.Feature f)).2.2 rest).1.hasMatchedLeaf
                nr.name) = true
          rw [hleaf, Bool.or_true]
      · show ((extractStatement pname supply k (.Feature f)).1.hasSubscopeNode ||
          (extractChildren pname supply
            (extractStatement pname supply k (.Feature f)).2.2 rest).1.hasSubscopeNode) = false
        rw [hs.2 (fun sc2 c2 h => nomatch h), hr.2]
        rfl
termination_by k cs => sizeOf cs
end

/-- C3: every rule yielded by `Rule.extract_subscope_rules` is named
`<parent>/<identifier>`, carries meta `lib=true`,
`capa/subscope-rule=true` and `capa/parent=<parent name>`, its scope and
statement are those of a `Subscope` node occurring in the parent's
original statement, the rewritten parent statement holds a `MatchedRule`
feature naming the new rule, and (when the rule's top-level statement is
not itself a subscope) no `Subscope` node remains in the rewritten
statement. -/
theorem claim_C3_subscope_extraction (supply : Nat → String) (k : Nat) (r nr : Rule)
    (hmem : nr ∈ (extract_subscope_rules supply k r).2.1) :
    (∃ j, nr.name = r.name ++ "/" ++ supply j) ∧
    nr.meta.get "lib" = some (.bool true) ∧
    nr.meta.get "capa/subscope-rule" = some (.bool true) ∧
    nr.meta.get "capa/parent" = some (.str r.name) ∧
    StatementOccurs (.Subscope nr.scope nr.statement) r.statement ∧
    (extract_subscope_rules supply k r).1.statement.hasMatchedLeaf nr.name = true ∧
    ((∀ sc c, r.statement ≠ .Subscope sc c) →
      (extract_subscope_rules supply k r).1.statement.hasSubscopeNode = false) := by
  have hs := extractStatement_spec r.name supply k r.statement
  have hmem' : nr ∈ (extractStatement r.name supply k r.statement).2.1 := hmem
  obtain ⟨⟨j, sc, ch, hshape, hocc⟩, hleaf⟩ := hs.1 nr hmem'
  subst hshape
  exact ⟨⟨j, rfl⟩, rfl, rfl, rfl, hocc, hleaf, fun h => hs.2 h⟩

/-- `claim_C3_subscope_extraction` applied to a concrete file rule `p`
holding one function subscope: the single extracted rule is
`subscopeRule "p/0" "function" (api CreateFile) "p"`. -/
theorem claim_C3_witness :
    (∃ j : Nat, (subscopeRule ("p" ++ "/" ++ toString (0 : Nat)) "function"
        (.Feature (.api "CreateFile")) "p").name = "p" ++ "/" ++ toString j) ∧
    (subscopeRule ("p" ++ "/" ++ toString (0 : Nat)) "function"
        (.Feature (.api "CreateFile")) "p").meta.get "lib" = some (.bool true) ∧
    (subscopeRule ("p" ++ "/" ++ toString (0 : Nat)) "function"
        (.Feature (.api "CreateFile")) "p").meta.get "capa/subscope-rule" =
      some (.bool true) ∧
    (subscopeRule ("p" ++ "/" ++ toString (0 : Nat)) "function"
        (.Feature (.api "CreateFile")) "p").meta.get "capa/parent" = some (.str "p") ∧
    StatementOccurs
      (.Subscope (subscopeRule ("p" ++ "/" ++ toString (0 : Nat)) "function"
          (.Feature (.api "CreateFile")) "p").scope
        (subscopeRule ("p" ++ "/" ++ toString (0 : Nat)) "function"
          (.Feature (.api "CreateFile")) "p").statement)
      (.And (.cons (.Subscope "function" (.Feature (.api "CreateFile"))) .nil) none) ∧
    (extract_subscope_rules (fun n => toString n) 0
        ⟨"p", "file",
          .And (.cons (.Subscope "function" (.Feature (.api "CreateFile"))) .nil) none,
          .nil⟩).1.statement.hasMatchedLeaf
      (subscopeRule ("p" ++ "/" ++ toString (0 : Nat)) "function"
        (.Feature (.api "CreateFile")) "p").name = true ∧
    ((∀ sc c,
        (Statement.And (.cons (.Subscope "function" (.Feature (.api "CreateFile"))) .nil)
          none) ≠ .Subscope sc c) →
      (extract_subscope_rules (fun n => toString n) 0
        ⟨"p", "file",
          .And (.cons (.Subscope "function" (.Feature (.api "CreateFile"))) .nil) none,
          .nil⟩).1.statement.hasSubscopeNode = false) :=
  claim_C3_subscope_extraction (fun n => toString n) 0
    ⟨"p", "file",
      .And (.cons (.Subscope "function" (.Feature (.api "CreateFile"))) .nil) none, .nil⟩
    (subscopeRule ("p" ++ "/" ++ toString (0 : Nat)) "function" (.Feature (.api "CreateFile")) "p")
    (List.mem_singleton.mpr rfl)

theorem mem_insertName (l : List String) (n x : String) :
    x ∈ insertName l n ↔ x ∈ l ∨ x = n := by
  unfold insertName
  by_cases h : l.contains n
  · rw [if_pos h]
    constructor
    · exact Or.inl
    · rintro (hx | rfl)
      · exact hx
      · exact List.elem_iff.mp h
  · rw [if_neg h]
    rw [List.mem_append, List.mem_singleton]

theorem findRule_name (rules : List Rule) (n : String) (d : Rule)
    (h : findRule rules n = some d) : d ∈ rules ∧ d.name = n := by
  unfold findRule at h
  refine ⟨List.mem_of_find?_eq_some h, ?_⟩
  have := List.find?_some h
  exact eq_of_beq (by simpa using this)

theorem findRule_self :
    ∀ (rules : List Rule), (rules.map Rule.name).Nodup → ∀ X ∈ rules,
      findRule rules X.name = some X
  | [], _, X, hX => by cases hX
  | r :: rest, hnd, X, hX => by
    rcases List.mem_cons.mp hX with rfl | hX'
    · unfold findRule
      rw [List.find?_cons_of_pos]
      simp
    · have hne : r.name ≠ X.name := by
        intro he
        have hmem : X.name ∈ rest.map Rule.name := List.mem_map.mpr ⟨X, hX', rfl⟩
        rw [← he] at hmem
        exact (List.nodup_cons.mp (by simpa using hnd)).1 hmem
      unfold findRule
      rw [List.find?_cons_of_neg]
      · exact findRule_self rest (List.nodup_cons.mp (by simpa using hnd)).2 X hX'
      · simpa using hne

theorem name_inj (rules : List Rule) (hnd : (rules.map Rule.name).Nodup)
    (X D : Rule) (hX : X ∈ rules) (hD : D ∈ rules) (h : X.name = D.name) : X = D := by
  have h1 := findRule_self rules hnd X hX
  have h2 := findRule_self rules hnd D hD
  rw [h] at h1
  rw [h1] at h2
  exact (Option.some.injEq _ _).mp h2

theorem flatMapCongr {α β : Type _} (f g : α → List β) :
    ∀ (l : List α), (∀ v ∈ l, f v = g v) → l.flatMap f = l.flatMap g
  | [], _ => rfl
  | a :: l, h => by
    simp only [List.flatMap_cons]
    rw [h a (List.mem_cons_self a l), flatMapCongr f g l (fun v hv => h v (List.mem_cons_of_mem a hv))]

theorem mem_foldl_insertRuleNames :
    ∀ (deps : List Rule) (acc : List String) (x : String),
      x ∈ List.foldl (fun a d => insertName a d.name) acc deps ↔
        x ∈ acc ∨ ∃ d ∈ deps, d.name = x
  | [], acc, x => by simp
  | d :: deps, acc, x => by
    simp only [List.foldl_cons]
    rw [mem_foldl_insertRuleNames deps (insertName acc d.name) x]
    rw [mem_insertName]
    constructor
    · rintro ((hx | rfl) | ⟨d', hd', rfl⟩)
      · exact Or.inl hx
      · exact Or.inr ⟨d, List.mem_cons_self d deps, rfl⟩
      · exact Or.inr ⟨d', List.mem_cons_of_mem d hd', rfl⟩
    · rintro (hx | ⟨d', hd', rfl⟩)
      · exact Or.inl (Or.inl hx)
      · rcases List.mem_cons.mp hd' with rfl | hd''
        · exact Or.inl (Or.inr rfl)
        · exact Or.inr ⟨d', hd'', rfl⟩

theorem filterIndex {α : Type _} (p : α → Bool) :
    ∀ (l : List α) (i : Nat) (x : α), (l.filter p).get? i = some x →
      ∃ io, l.get? io = some x ∧ ∀ (j : Nat) (y : α), j < io → l.get? j = some y →
        p y = true → ∃ jf, jf < i ∧ (l.filter p).get? jf = some y
  | [], i, x, h => by simp at h
  | a :: t, i, x, h => by
    cases hp : p a
    · rw [List.filter_cons_of_neg (by simp [hp])] at h ⊢
      obtain ⟨io, hio, hprev⟩ := filterIndex p t i x h
      refine ⟨io + 1, by simpa using hio, ?_⟩
      intro j y hj hy hpy
      cases j with
      | zero =>
        have ha : a = y := by simpa using hy
        rw [← ha, hp] at hpy
        cases hpy
      | succ j' =>
        exact hprev j' y (Nat.lt_of_succ_lt_succ hj) (by simpa using hy) hpy
    · rw [List.filter_cons_of_pos (by simp [hp])] at h
      cases i with
      | zero =>
        have ha : a = x := by simpa using h
        subst ha
        exact ⟨0, rfl, fun j y hj _ _ => absurd hj (Nat.not_lt_zero j)⟩
      | succ i' =>
        obtain ⟨io, hio, hprev⟩ := filterIndex p t i' x (by simpa using h)
        refine ⟨io + 1, by simpa using hio, ?_⟩
        intro j y hj hy hpy
        cases j with
        | zero =>
          have ha : a = y := by simpa using hy
          subst ha
          refine ⟨0, Nat.succ_pos i', ?_⟩
          rw [List.filter_cons_of_pos (by simp [hp])]
          rfl
        | succ j' =>
          obtain ⟨jf, hjf, hjfg⟩ := hprev j' y (Nat.lt_of_succ_lt_succ hj) (by simpa using hy) hpy
          refine ⟨jf + 1, Nat.succ_lt_succ hjf, ?_⟩
          rw [List.filter_cons_of_pos (by simp [hp])]
          simpa using hjfg

theorem gradMono (rules : List Rule) (idx : List (String × List Rule)) :
    ∀ (fuel : Nat),
      (∀ (w : List String) (r : Rule) (w' : List String),
        gradVisit rules idx fuel w r = .ok w' → ∀ x ∈ w, x ∈ w') ∧
      (∀ (w : List String) (ds : List String) (w' : List String),
        gradVisitDeps rules idx fuel w ds = .ok w' → ∀ x ∈ w, x ∈ w')
  | 0 => by
    constructor
    · intro w r w' h
      cases h
    · intro w ds w' h
      cases h
  | fuel + 1 => by
    have ih := gradMono rules idx fuel
    constructor
    · intro w r w' h x hx
      have h' : gradVisitDeps rules idx fuel (insertName w r.name)
          (get_dependencies idx r) = .ok w' := h
      exact ih.2 _ _ _ h' x ((mem_insertName w r.name x).mpr (Or.inl hx))
    · intro w ds w' h x hx
      match ds with
      | [] =>
        have h' : Except.ok w = .ok w' := h
        cases h'
        exact hx
      | d :: ds =>
        have h' : (match findRule rules d with
            | none => (throw (RuleError.pyError "KeyError") : Except RuleError (List String))
            | some rd => do
              let w1 ← gradVisit rules idx fuel w rd
              gradVisitDeps rules idx fuel w1 ds) = .ok w' := h
        split at h'
        · cases h'
        · rename_i rd hfind
          cases hgv : gradVisit rules idx fuel w rd with
          | error e =>
            rw [hgv, exceptBind_error] at h'
            cases h'
          | ok w1 =>
            rw [hgv, exceptBind_ok] at h'
            exact ih.2 _ _ _ h' x (ih.1 _ _ _ hgv x hx)

theorem gradName (rules : List Rule) (idx : List (String × List Rule))
    (fuel : Nat) (w : List String) (r : Rule) (w' : List String)
    (h : gradVisit rules idx fuel w r = .ok w') : r.name ∈ w' := by
  match fuel with
  | 0 => cases h
  | fuel + 1 =>
    have h' : gradVisitDeps rules idx fuel (insertName w r.name)
        (get_dependencies idx r) = .ok w' := h
    exact (gradMono rules idx fuel).2 _ _ _ h' r.name
      ((mem_insertName w r.name r.name).mpr (Or.inr rfl))

theorem closedIn_mono (rules : List Rule) (idx : List (String × List Rule))
    (w w' : List String) (hsub : ∀ x ∈ w, x ∈ w') (x : String)
    (h : ClosedIn rules idx w x) : ClosedIn rules idx w' x := by
  obtain ⟨rx, hrx, hdeps⟩ := h
  refine ⟨rx, hrx, fun n hn => ?_⟩
  obtain ⟨d, hd, hdw⟩ := hdeps n hn
  exact ⟨d, hd, hsub _ hdw⟩

theorem gradClosure (rules : List Rule) (idx : List (String × List Rule)) :
    ∀ (fuel : Nat),
      (∀ (w : List String) (r : Rule) (w' : List String),
        findRule rules r.name = some r → gradVisit rules idx fuel w r = .ok w' →
        (∀ x ∈ w', x ∈ w ∨ ClosedIn rules idx w' x) ∧ ClosedIn rules idx w' r.name) ∧
      (∀ (w : List String) (ds : List String) (w' : List String),
        gradVisitDeps rules idx fuel w ds = .ok w' →
        (∀ x ∈ w', x ∈ w ∨ ClosedIn rules idx w' x) ∧
        ∀ d ∈ ds, ∃ rd, findRule rules d = some rd ∧ rd.name ∈ w')
  | 0 => by
    constructor
    · intro w r w' _ h
      cases h
    · intro w ds w' h
      cases h
  | fuel + 1 => by
    have ih := gradClosure rules idx fuel
    constructor
    · intro w r w' hfr h
      have h' : gradVisitDeps rules idx fuel (insertName w r.name)
          (get_dependencies idx r) = .ok w' := h
      obtain ⟨hcl, hdeps⟩ := ih.2 _ _ _ h'
      have hclr : ClosedIn rules idx w' r.name :=
        ⟨r, hfr, fun n hn => hdeps n hn⟩
      refine ⟨?_, hclr⟩
      intro x hx
      rcases hcl x hx with hxi | hxc
      · rcases (mem_insertName w r.name x).mp hxi with hxw | rfl
        · exact Or.inl hxw
        · exact Or.inr hclr
      · exact Or.inr hxc
    · intro w ds w' h
      match ds with
      | [] =>
        have h' : Except.ok w = .ok w' := h
        cases h'
        exact ⟨fun x hx => Or.inl hx, fun d hd => absurd hd (List.not_mem_nil d)⟩
      | d :: ds =>
        have h' : (match findRule rules d with
            | none => (throw (RuleError.pyError "KeyError") : Except RuleError (List String))
            | some rd => do
              let w1 ← gradVisit rules idx fuel w rd
              gradVisitDeps rules idx fuel w1 ds) = .ok w' := h
        split at h'
        · cases h'
        · rename_i rd hfind
          cases hgv : gradVisit rules idx fuel w rd with
          | error e =>
            rw [hgv, exceptBind_error] at h'
            cases h'
          | ok w1 =>
            rw [hgv, exceptBind_ok] at h'
            have hrdname : rd.name = d := (findRule_name rules d rd hfind).2
            have hfr : findRule rules rd.name = some rd := by rw [hrdname]; exact hfind
            obtain ⟨hcl1, hclr⟩ := ih.1 _ _ _ hfr hgv
            obtain ⟨hcl2, hdeps2⟩ := ih.2 _ _ _ h'
            have hsub1 : ∀ x ∈ w1, x ∈ w' := gradMono rules idx fuel |>.2 _ _ _ h'
            have hrdw1 : rd.name ∈ w1 := gradName rules idx fuel w rd w1 hgv
            refine ⟨?_, ?_⟩
            · intro x hx
              rcases hcl2 x hx with hx1 | hxc
              · rcases hcl1 x hx1 with hxw | hxc1
                · exact Or.inl hxw
                · exact Or.inr (closedIn_mono rules idx w1 w' hsub1 x hxc1)
              · exact Or.inr hxc
            · intro d' hd'
              rcases List.mem_cons.mp hd' with rfl | hd''
              · exact ⟨rd, hfind, hsub1 _ hrdw1⟩
              · exact hdeps2 d' hd''

theorem scopeNamesStepClosed (fuel : Nat) (rules : List Rule) (rn : String)
    (deps : List Rule)
    (h : get_rules_and_dependencies fuel rules rn = .ok deps) (acc : List String)
    (hacc : ∀ x ∈ acc, ClosedIn rules (index_rules_by_namespace rules) acc x) :
    (∀ x ∈ acc, x ∈ List.foldl (fun a d => insertName a d.name) acc deps) ∧
    (∀ x ∈ List.foldl (fun a d => insertName a d.name) acc deps,
      ClosedIn rules (index_rules_by_namespace rules)
        (List.foldl (fun a d => insertName a d.name) acc deps) x) := by
  have h' : (match findRule rules rn with
      | none => (throw (RuleError.pyError "KeyError") : Except RuleError (List Rule))
      | some root => do
        let wanted ← gradVisit rules (index_rules_by_namespace rules) fuel [rn] root
        pure (rules.filter (fun r => wanted.contains r.name))) = .ok deps := h
  split at h'
  · cases h'
  · rename_i root hfind
    cases hgv : gradVisit rules (index_rules_by_namespace rules) fuel [rn] root with
    | error e =>
      rw [hgv, exceptBind_error] at h'
      cases h'
    | ok wanted =>
      rw [hgv, exceptBind_ok, exceptPure] at h'
      have hdeps : deps = rules.filter (fun r => wanted.contains r.name) :=
        ((Option.some.injEq _ _).mp (congrArg Except.toOption h')).symm
      have hrootname : root.name = rn := (findRule_name rules rn root hfind).2
      have hfr : findRule rules root.name = some root := by rw [hrootname]; exact hfind
      obtain ⟨hcl, hclr⟩ :=
        (gradClosure rules (index_rules_by_namespace rules) fuel).1 _ _ _ hfr hgv
      have hwcl : ∀ x ∈ wanted, ClosedIn rules (index_rules_by_namespace rules) wanted x := by
        intro x hx
        rcases hcl x hx with hx1 | hxc
        · have : x = rn := by simpa using hx1
          subst this
          rw [← hrootname]
          exact hclr
        · exact hxc
      have hmem : ∀ x, x ∈ List.foldl (fun a d => insertName a d.name) acc deps ↔
          x ∈ acc ∨ ∃ d ∈ deps, d.name = x :=
        fun x => mem_foldl_insertRuleNames deps acc x
      have hwsub : ∀ x ∈ wanted, x ∈ List.foldl (fun a d => insertName a d.name) acc deps := by
        intro x hx
        obtain ⟨rx, hrx, -⟩ := hwcl x hx
        obtain ⟨hrxmem, hrxname⟩ := findRule_name rules x rx hrx
        refine (hmem x).mpr (Or.inr ⟨rx, ?_, hrxname⟩)
        rw [hdeps]
        refine List.mem_filter.mpr ⟨hrxmem, ?_⟩
        rw [hrxname]
        exact List.elem_iff.mpr hx
      refine ⟨fun x hx => (hmem x).mpr (Or.inl hx), ?_⟩
      intro x hx
      rcases (hmem x).mp hx with hx1 | ⟨d, hd, rfl⟩
      · exact closedIn_mono rules _ acc _ (fun y hy => (hmem y).mpr (Or.inl hy)) x (hacc x hx1)
      · have hdw : d.name ∈ wanted := by
          rw [hdeps] at hd
          exact List.elem_iff.mp (List.mem_filter.mp hd).2
        exact closedIn_mono rules _ wanted _ hwsub d.name (hwcl d.name hdw)

theorem scopeNamesFoldClosed (fuel : Nat) (rules : List Rule) :
    ∀ (rl : List Rule) (acc S : List String),
      (∀ x ∈ acc, ClosedIn rules (index_rules_by_namespace rules) acc x) →
      List.foldlM
        (fun (acc : List String) (r : Rule) =>
          if isSubscopeRule r then pure acc
          else do
            let deps ← get_rules_and_dependencies fuel rules r.name
            pure (List.foldl (fun a (d : Rule) => insertName a d.name) acc deps))
        acc rl = .ok S →
      ∀ x ∈ S, ClosedIn rules (index_rules_by_namespace rules) S x
  | [], acc, S, hacc, h => by
    have h' : Except.ok acc = .ok S := h
    cases h'
    exact hacc
  | r :: rl, acc, S, hacc, h => by
    rw [List.foldlM_cons] at h
    by_cases hsub : isSubscopeRule r
    · rw [if_pos hsub, exceptPure, exceptBind_ok] at h
      exact scopeNamesFoldClosed fuel rules rl acc S hacc h
    · rw [if_neg hsub] at h
      cases hgd : get_rules_and_dependencies fuel rules r.name with
      | error e =>
        rw [hgd, exceptBind_error, exceptBind_error] at h
        cases h
      | ok deps =>
        rw [hgd, exceptBind_ok, exceptPure, exceptBind_ok] at h
        obtain ⟨-, hcl1⟩ := scopeNamesStepClosed fuel rules r.name deps hgd acc hacc
        exact scopeNamesFoldClosed fuel rules rl _ S hcl1 h

theorem scopeRulesClosed (fuel : Nat) (rules : List Rule) (S : List String)
    (hnodup : (rules.map Rule.name).Nodup)
    (hS : ∀ x ∈ S, ClosedIn rules (index_rules_by_namespace rules) S x) :
    ∀ X ∈ rules.filter (fun r => S.contains r.name),
      ∀ n ∈ get_dependencies (index_rules_by_namespace rules) X,
        ∃ D, findRule rules n = some D ∧
          D ∈ rules.filter (fun r => S.contains r.name) := by
  intro X hX n hn
  obtain ⟨hXr, hXc⟩ := List.mem_filter.mp hX
  have hXS : X.name ∈ S := List.elem_iff.mp hXc
  obtain ⟨rx, hrx, hdeps⟩ := hS X.name hXS
  have hrxX : rx = X := by
    have := findRule_self rules hnodup X hXr
    rw [this] at hrx
    exact ((Option.some.injEq _ _).mp hrx).symm
  subst hrxX
  obtain ⟨D, hD, hDS⟩ := hdeps n hn
  refine ⟨D, hD, List.mem_filter.mpr ⟨(findRule_name rules n D hD).1, List.elem_iff.mpr hDS⟩⟩

theorem getDeps_sub_eq (rules : List Rule) (S : List String)
    (hnodup : (rules.map Rule.name).Nodup)
    (hclo : ∀ X ∈ rules.filter (fun r => S.contains r.name),
      ∀ n ∈ get_dependencies (index_rules_by_namespace rules) X,
        ∃ D, findRule rules n = some D ∧ D ∈ rules.filter (fun r => S.contains r.name))
    (X : Rule) (hX : X ∈ rules.filter (fun r => S.contains r.name)) :
    get_dependencies (index_rules_by_namespace (rules.filter (fun r => S.contains r.name))) X =
      get_dependencies (index_rules_by_namespace rules) X := by
  unfold get_dependencies
  apply flatMapCongr
  intro v hv
  rw [idxGet_index_rules, idxGet_index_rules]
  cases hemp : (rules.filter (fun r => hasNamespacePrefB r v)).isEmpty
  · have hkey : ∀ Y ∈ rules.filter (fun r => hasNamespacePrefB r v),
        Y ∈ rules.filter (fun r => S.contains r.name) := by
      intro Y hY
      have hYname : Y.name ∈ get_dependencies (index_rules_by_namespace rules) X := by
        unfold get_dependencies
        refine List.mem_flatMap.mpr ⟨v, hv, ?_⟩
        rw [idxGet_index_rules, hemp, if_neg Bool.false_ne_true]
        exact List.mem_map.mpr ⟨Y, hY, rfl⟩
      obtain ⟨D, hD, hDS⟩ := hclo X hX Y.name hYname
      have hfy := findRule_self rules hnodup Y (List.mem_filter.mp hY).1
      rw [hfy] at hD
      have : Y = D := (Option.some.injEq _ _).mp hD
      rw [this]
      exact hDS
    have hff : (rules.filter (fun r => S.contains r.name)).filter
          (fun r => hasNamespacePrefB r v) =
        rules.filter (fun r => hasNamespacePrefB r v) := by
      rw [List.filter_filter]
      refine List.filter_congr ?_
      intro a ha
      cases hpa : hasNamespacePrefB a v
      · simp [hpa]
      · have hain : a ∈ rules.filter (fun r => hasNamespacePrefB r v) :=
          List.mem_filter.mpr ⟨ha, hpa⟩
        have hPa : S.contains a.name = true := (List.mem_filter.mp (hkey a hain)).2
        rw [hPa]
        rfl
    rw [hff, hemp, if_neg Bool.false_ne_true]
  · have hnil : rules.filter (fun r => hasNamespacePrefB r v) = [] := by
      simpa [List.isEmpty_iff] using hemp
    have hnil2 : (rules.filter (fun r => S.contains r.name)).filter
        (fun r => hasNamespacePrefB r v) = [] := by
      refine List.eq_nil_iff_forall_not_mem.mpr ?_
      intro y hy
      obtain ⟨hy1, hy2⟩ := List.mem_filter.mp hy
      have : y ∈ rules.filter (fun r => hasNamespacePrefB r v) :=
        List.mem_filter.mpr ⟨(List.mem_filter.mp hy1).1, hy2⟩
      rw [hnil] at this
      cases this
    rw [hnil2]
    rfl

theorem topoPreserve (SC : List Rule) (idx : List (String × List Rule))
    (hnodup : (SC.map Rule.name).Nodup) :
    ∀ (fuel : Nat),
      (∀ (st : TopoState) (r : Rule) (st' : TopoState), r ∈ SC → TopoInv SC idx st →
        topoVisit SC idx fuel st r = .ok st' →
        TopoInv SC idx st' ∧ (∃ suf, st'.ret = st.ret ++ suf) ∧
        (∀ x ∈ st.seen, x ∈ st'.seen) ∧ r.name ∈ st'.seen) ∧
      (∀ (st : TopoState) (ds : List String) (st' : TopoState), TopoInv SC idx st →
        topoVisitDeps SC idx fuel st ds = .ok st' →
        TopoInv SC idx st' ∧ (∃ suf, st'.ret = st.ret ++ suf) ∧
        (∀ x ∈ st.seen, x ∈ st'.seen) ∧
        ∀ d ∈ ds, ∃ D, findRule SC d = some D ∧ D.name ∈ st'.seen)
  | 0 => by
    constructor
    · intro st r st' _ _ h
      cases h
    · intro st ds st' _ h
      cases h
  | fuel + 1 => by
    have ih := topoPreserve SC idx hnodup fuel
    constructor
    · intro st r st' hr hInv h
      have h' : (if st.seen.contains r.name then (Except.ok st : Except RuleError TopoState)
          else do
            let st1 ← topoVisitDeps SC idx fuel st (get_dependencies idx r)
            (Except.ok ⟨insertName st1.seen r.name, st1.ret ++ [r]⟩ :
              Except RuleError TopoState)) = .ok st' := h
      by_cases hseen : st.seen.contains r.name
      · rw [if_pos hseen] at h'
        cases h'
        exact ⟨hInv, ⟨[], (List.append_nil _).symm⟩, fun x hx => hx, List.elem_iff.mp hseen⟩
      · rw [if_neg hseen] at h'
        cases htv : topoVisitDeps SC idx fuel st (get_dependencies idx r) with
        | error e =>
          rw [htv, exceptBind_error] at h'
          cases h'
        | ok st1 =>
          rw [htv, exceptBind_ok] at h'
          cases h'
          obtain ⟨hInv1, ⟨suf1, hsuf1⟩, hmono1, hdeps1⟩ := ih.2 st _ st1 hInv htv
          refine ⟨⟨?_, ?_, ?_⟩, ?_, ?_, ?_⟩
          · intro x
            show x ∈ insertName st1.seen r.name ↔ ∃ X ∈ st1.ret ++ [r], X.name = x
            rw [mem_insertName]
            constructor
            · rintro (hx | rfl)
              · obtain ⟨X, hXret, hXname⟩ := (hInv1.1 x).mp hx
                exact ⟨X, List.mem_append.mpr (Or.inl hXret), hXname⟩
              · exact ⟨r, List.mem_append.mpr (Or.inr (List.mem_singleton.mpr rfl)), rfl⟩
            · rintro ⟨X, hXmem, rfl⟩
              rcases List.mem_append.mp hXmem with hXret | hXr
              · exact Or.inl ((hInv1.1 X.name).mpr ⟨X, hXret, rfl⟩)
              · rw [List.mem_singleton.mp hXr]
                exact Or.inr rfl
          · intro X hX
            rcases List.mem_append.mp hX with hXret | hXr
            · exact hInv1.2.1 X hXret
            · rw [List.mem_singleton.mp hXr]
              exact hr
          · intro i B hB n hn
            rcases Nat.lt_trichotomy i st1.ret.length with hi | hi | hi
            · rw [List.get?_append hi] at hB
              obtain ⟨D, j, hfD, hj, hgj⟩ := hInv1.2.2 i B hB n hn
              have hjlt : j < st1.ret.length := Nat.lt_trans hj hi
              exact ⟨D, j, hfD, hj, by rw [List.get?_append hjlt]; exact hgj⟩
            · subst hi
              rw [List.get?_append_right (Nat.le_refl _)] at hB
              have hBr : B = r := by
                have := hB
                rw [Nat.sub_self] at this
                exact ((Option.some.injEq _ _).mp this).symm
              subst hBr
              obtain ⟨D, hfD, hDseen⟩ := hdeps1 n hn
              obtain ⟨X, hXret, hXname⟩ := (hInv1.1 D.name).mp hDseen
              have hXD : X = D := name_inj SC hnodup X D (hInv1.2.1 X hXret)
                (findRule_name SC n D hfD).1 hXname
              subst hXD
              obtain ⟨j, hgj⟩ := List.get?_of_mem hXret
              have hjlt : j < st1.ret.length := by
                by_contra hcon
                rw [List.get?_eq_none.mpr (Nat.le_of_not_lt hcon)] at hgj
                cases hgj
              exact ⟨X, j, hfD, hjlt, by rw [List.get?_append hjlt]; exact hgj⟩
            · have hnone : (st1.ret ++ [r]).get? i = none := by
                refine List.get?_eq_none.mpr ?_
                rw [List.length_append, List.length_singleton]
                omega
              rw [hnone] at hB
              cases hB
          · exact ⟨suf1 ++ [r], by rw [hsuf1, List.append_assoc]⟩
          · intro x hx
            exact (mem_insertName _ _ _).mpr (Or.inl (hmono1 x hx))
          · exact (mem_insertName _ _ _).mpr (Or.inr rfl)
    · intro st ds st' hInv h
      match ds with
      | [] =>
        have h' : Except.ok st = .ok st' := h
        cases h'
        exact ⟨hInv, ⟨[], (List.append_nil _).symm⟩, fun x hx => hx,
          fun d hd => absurd hd (List.not_mem_nil d)⟩
      | d :: ds =>
        have h' : (match findRule SC d with
            | none => (throw (RuleError.pyError "KeyError") : Except RuleError TopoState)
            | some rd => do
              let st1 ← topoVisit SC idx fuel st rd
              topoVisitDeps SC idx fuel st1 ds) = .ok st' := h
        split at h'
        · cases h'
        · rename_i rd hfind
          cases htv : topoVisit SC idx fuel st rd with
          | error e =>
            rw [htv, exceptBind_error] at h'
            cases h'
          | ok st1 =>
            rw [htv, exceptBind_ok] at h'
            obtain ⟨hInv1, ⟨suf1, hsuf1⟩, hmono1, hrdseen⟩ :=
              ih.1 st rd st1 (findRule_name SC d rd hfind).1 hInv htv
            obtain ⟨hInv2, ⟨suf2, hsuf2⟩, hmono2, hdeps2⟩ := ih.2 st1 ds st' hInv1 h'
            refine ⟨hInv2, ⟨suf1 ++ suf2, by rw [hsuf2, hsuf1, List.append_assoc]⟩,
              fun x hx => hmono2 x (hmono1 x hx), ?_⟩
            intro d' hd'
            rcases List.mem_cons.mp hd' with rfl | hd''
            · exact ⟨rd, hfind, hmono2 _ hrdseen⟩
            · exact hdeps2 d' hd''

theorem topoFold (SC : List Rule) (idx : List (String × List Rule))
    (hnodup : (SC.map Rule.name).Nodup) (fuel : Nat) :
    ∀ (rl : List Rule) (st st' : TopoState),
      (∀ r ∈ rl, r ∈ SC) → TopoInv SC idx st →
      List.foldlM (fun st r => topoVisit SC idx fuel st r) st rl = .ok st' →
      TopoInv SC idx st'
  | [], st, st', _, hInv, h => by
    have h' : Except.ok st = .ok st' := h
    cases h'
    exact hInv
  | r :: rl, st, st', hrl, hInv, h => by
    rw [List.foldlM_cons] at h
    cases htv : topoVisit SC idx fuel st r with
    | error e =>
      rw [htv, exceptBind_error] at h
      cases h
    | ok st1 =>
      rw [htv, exceptBind_ok] at h
      obtain ⟨hInv1, -, -, -⟩ :=
        (topoPreserve SC idx hnodup fuel).1 st r st1 (hrl r (List.mem_cons_self r rl)) hInv htv
      exact topoFold SC idx hnodup fuel rl st1 st'
        (fun r' hr' => hrl r' (List.mem_cons_of_mem r hr')) hInv1 h

theorem topoOrderSpec (fuel : Nat) (SC : List Rule)
    (hnodup : (SC.map Rule.name).Nodup) (ordered : List Rule)
    (h : topologically_order_rules fuel SC = .ok ordered) :
    (∀ X ∈ ordered, X ∈ SC) ∧ DepsEarlier SC (index_rules_by_namespace SC) ordered := by
  have h' : (List.foldlM (fun st r => topoVisit SC (index_rules_by_namespace SC) fuel st r)
      (⟨[], []⟩ : TopoState) SC >>= fun st => pure st.ret) = .ok ordered := h
  cases hfold : List.foldlM (fun st r => topoVisit SC (index_rules_by_namespace SC) fuel st r)
      (⟨[], []⟩ : TopoState) SC with
  | error e =>
    rw [hfold, exceptBind_error] at h'
    cases h'
  | ok st =>
    rw [hfold, exceptBind_ok, exceptPure] at h'
    have hret : ordered = st.ret := ((Option.some.injEq _ _).mp (congrArg Except.toOption h')).symm
    have hInit : TopoInv SC (index_rules_by_namespace SC) ⟨[], []⟩ := by
      refine ⟨?_, ?_, ?_⟩
      · intro x
        constructor
        · intro hx
          cases hx
        · rintro ⟨X, hX, -⟩
          cases hX
      · intro X hX
        cases hX
      · intro i B hB
        rw [show (⟨[], []⟩ : TopoState).ret = [] from rfl, List.get?_nil] at hB
        cases hB
    have hInv := topoFold SC (index_rules_by_namespace SC) hnodup fuel SC
      ⟨[], []⟩ st (fun r hr => hr) hInit hfold
    rw [hret]
    exact ⟨hInv.2.1, hInv.2.2⟩

theorem scopeListOrdered (fuel : Nat) (rules : List Rule) (scope : String) (L : List Rule)
    (hnodup : (rules.map Rule.name).Nodup)
    (hL : _get_rules_for_scope fuel rules scope = .ok L)
    (R D : Rule) (i : Nat) (hR : L.get? i = some R)
    (hdep : Relation.TransGen (DirectDep rules (index_rules_by_namespace rules)) R D)
    (hD : D.scope = scope) : ∃ j, j < i ∧ L.get? j = some D := by
  have h' : (List.foldlM
      (fun (acc : List String) (r : Rule) =>
        if isSubscopeRule r then pure acc
        else do
          let deps ← get_rules_and_dependencies fuel rules r.name
          pure (List.foldl (fun a (d : Rule) => insertName a d.name) acc deps))
      ([] : List String) rules >>= fun scopeNames =>
      topologically_order_rules fuel (rules.filter (fun r => scopeNames.contains r.name)) >>=
        fun ordered => pure (get_rules_with_scope ordered scope)) = .ok L := hL
  cases hsn : List.foldlM
      (fun (acc : List String) (r : Rule) =>
        if isSubscopeRule r then pure acc
        else do
          let deps ← get_rules_and_dependencies fuel rules r.name
          pure (List.foldl (fun a (d : Rule) => insertName a d.name) acc deps))
      ([] : List String) rules with
  | error e =>
    rw [hsn, exceptBind_error] at h'
    cases h'
  | ok S =>
    rw [hsn, exceptBind_ok] at h'
    cases hto : topologically_order_rules fuel
        (rules.filter (fun r => S.contains r.name)) with
    | error e =>
      rw [hto, exceptBind_error] at h'
      cases h'
    | ok ordered =>
      rw [hto, exceptBind_ok, exceptPure] at h'
      have hLval : L = ordered.filter (fun r => r.scope == scope) :=
        ((Option.some.injEq _ _).mp (congrArg Except.toOption h')).symm
      have hScl : ∀ x ∈ S, ClosedIn rules (index_rules_by_namespace rules) S x :=
        scopeNamesFoldClosed fuel rules rules [] S
          (fun x hx => absurd hx (List.not_mem_nil x)) hsn
      have hclo := scopeRulesClosed fuel rules S hnodup hScl
      have hsubnodup : ((rules.filter (fun r => S.contains r.name)).map Rule.name).Nodup :=
        hnodup.sublist ((List.filter_sublist rules).map Rule.name)
      obtain ⟨hmemSC, hDE⟩ := topoOrderSpec fuel _ hsubnodup ordered hto
      have hstep : ∀ (B D' : Rule) (iB : Nat), ordered.get? iB = some B →
          DirectDep rules (index_rules_by_namespace rules) B D' →
          ∃ j, j < iB ∧ ordered.get? j = some D' := by
        intro B D' iB hgB hdd
        have hBSC : B ∈ rules.filter (fun r => S.contains r.name) :=
          hmemSC B (List.get?_mem hgB)
        obtain ⟨n, hn, hfD⟩ := hdd
        have hn' : n ∈ get_dependencies
            (index_rules_by_namespace (rules.filter (fun r => S.contains r.name))) B := by
          rw [getDeps_sub_eq rules S hnodup hclo B hBSC]
          exact hn
        obtain ⟨D'', j, hfD'', hj, hgj⟩ := hDE iB B hgB n hn'
        have hD''eq : D'' = D' := by
          have h1 := findRule_name _ n D'' hfD''
          have h2 := findRule_name rules n D' hfD
          exact name_inj rules hnodup D'' D' (List.mem_filter.mp h1.1).1 h2.1
            (h1.2.trans h2.2.symm)
        subst hD''eq
        exact ⟨j, hj, hgj⟩
      rw [hLval] at hR
      obtain ⟨io, hio, hprev⟩ := filterIndex (fun r => r.scope == scope) ordered i R hR
      have htrans : ∀ (Dx : Rule),
          Relation.TransGen (DirectDep rules (index_rules_by_namespace rules)) R Dx →
          ∃ j, j < io ∧ ordered.get? j = some Dx := by
        intro Dx hdep'
        induction hdep' with
        | single hdd => exact hstep R _ io hio hdd
        | tail hRb hbc ihb =>
          obtain ⟨j, hj, hgj⟩ := ihb
          obtain ⟨j', hj', hgj'⟩ := hstep _ _ j hgj hbc
          exact ⟨j', Nat.lt_trans hj' hj, hgj'⟩
      have hDord : ∃ j, j < io ∧ ordered.get? j = some D := htrans D hdep
      obtain ⟨j, hj, hgj⟩ := hDord
      have hpD : (D.scope == scope) = true := by
        rw [hD]
        simp
      obtain ⟨jf, hjf, hgjf⟩ := hprev j D hj hgj hpD
      rw [hLval]
      exact ⟨jf, hjf, hgjf⟩


theorem exceptThrow {α : Type _} (e : RuleError) :
    (throw e : Except RuleError α) = .error e := rfl

/-- C1: in every scope list of a successfully constructed `RuleSet` (with
pairwise distinct rule names), every transitive dependency `D` of a listed
rule `R` — computed over `MatchedRule` leaves with namespace expansion —
whose scope is the list's scope appears at a strictly earlier index than
`R`. -/
theorem claim_C1_topological_order (fuel : Nat) (supply : Nat → String)
    (rules0 : List Rule) (rs : RuleSet)
    (hbuild : RuleSet.build fuel supply rules0 = .ok rs)
    (hnodup : (rs.rules.map Rule.name).Nodup)
    (scope : String) (L : List Rule)
    (hsel : (scope = FILE_SCOPE ∧ L = rs.fileRules) ∨
            (scope = FUNCTION_SCOPE ∧ L = rs.functionRules) ∨
            (scope = BASIC_BLOCK_SCOPE ∧ L = rs.basicBlockRules))
    (R D : Rule) (i : Nat) (hR : L.get? i = some R)
    (hdep : Relation.TransGen (DirectDep rs.rules (index_rules_by_namespace rs.rules)) R D)
    (hD : D.scope = scope) :
    ∃ j, j < i ∧ L.get? j = some D := by
  unfold RuleSet.build at hbuild
  cases hu : ensure_rules_are_unique rules0 with
  | error e =>
    rw [hu, exceptBind_error] at hbuild
    cases hbuild
  | ok u =>
    rw [hu, exceptBind_ok] at hbuild
    cases he : extractAllRules supply fuel rules0 0 [] with
    | error e =>
      rw [he, exceptBind_error] at hbuild
      cases hbuild
    | ok res =>
      rw [he, exceptBind_ok] at hbuild
      unfold buildRuleSetTail at hbuild
      cases hed : ensure_rule_dependencies_are_met res.1 with
      | error e =>
        rw [hed, exceptBind_error] at hbuild
        cases hbuild
      | ok u' =>
        rw [hed, exceptBind_ok] at hbuild
        by_cases hlen : res.1.length = 0
        · rw [if_pos hlen, exceptThrow, exceptBind_error] at hbuild
          cases hbuild
        · rw [if_neg hlen, exceptPure, exceptBind_ok] at hbuild
          cases hf1 : _get_rules_for_scope fuel res.1 FILE_SCOPE with
          | error e =>
            rw [hf1, exceptBind_error] at hbuild
            cases hbuild
          | ok fileRules =>
            rw [hf1, exceptBind_ok] at hbuild
            cases hf2 : _get_rules_for_scope fuel res.1 FUNCTION_SCOPE with
            | error e =>
              rw [hf2, exceptBind_error] at hbuild
              cases hbuild
            | ok functionRules =>
              rw [hf2, exceptBind_ok] at hbuild
              cases hf3 : _get_rules_for_scope fuel res.1 BASIC_BLOCK_SCOPE with
              | error e =>
                rw [hf3, exceptBind_error] at hbuild
                cases hbuild
              | ok basicBlockRules =>
                rw [hf3, exceptBind_ok, exceptPure] at hbuild
                have hrs := (Option.some.injEq _ _).mp (congrArg Except.toOption hbuild)
                subst hrs
                rcases hsel with ⟨hsc, hLv⟩ | ⟨hsc, hLv⟩ | ⟨hsc, hLv⟩ <;> subst hsc <;> subst hLv
                · exact scopeListOrdered fuel res.1 FILE_SCOPE _ hnodup hf1 R D i hR hdep hD
                · exact scopeListOrdered fuel res.1 FUNCTION_SCOPE _ hnodup hf2 R D i hR hdep hD
                · exact scopeListOrdered fuel res.1 BASIC_BLOCK_SCOPE _ hnodup hf3 R D i hR
                    hdep hD

/-- `claim_C1_topological_order` applied to a concrete two-rule build:
rule `r` depends on rule `d` (both function scope), and `d` indeed sits at
index 0, before `r` at index 1, in the function-scope list. -/
theorem claim_C1_witness :
    ∃ j, j < 1 ∧
      ([⟨"d", "function", .Feature (.api "X"), .nil⟩,
        ⟨"r", "function", .Feature (.matchedRule "d"), .nil⟩] : List Rule).get? j =
        some ⟨"d", "function", .Feature (.api "X"), .nil⟩ :=
  claim_C1_topological_order 10 (fun n => toString n)
    [⟨"d", "function", .Feature (.api "X"), .nil⟩,
     ⟨"r", "function", .Feature (.matchedRule "d"), .nil⟩]
    ⟨[], [⟨"d", "function", .Feature (.api "X"), .nil⟩,
          ⟨"r", "function", .Feature (.matchedRule "d"), .nil⟩], [],
     [⟨"d", "function", .Feature (.api "X"), .nil⟩,
      ⟨"r", "function", .Feature (.matchedRule "d"), .nil⟩], []⟩
    rfl
    (by decide)
    "function"
    [⟨"d", "function", .Feature (.api "X"), .nil⟩,
     ⟨"r", "function", .Feature (.matchedRule "d"), .nil⟩]
    (Or.inr (Or.inl ⟨rfl, rfl⟩))
    ⟨"r", "function", .Feature (.matchedRule "d"), .nil⟩
    ⟨"d", "function", .Feature (.api "X"), .nil⟩
    1
    rfl
    (Relation.TransGen.single ⟨"d", List.mem_singleton.mpr rfl, rfl⟩)
    rfl
